import Mathlib

/-!
Verification development for the `project` repository (Python): a shallow
embedding of `src/project/csv2df.py` and `src/project/project.py` together
with proofs about the table codec (dump_df / read_csv) and the workspace
path-resolution layer (Project).

Strings are modelled as `List Char`; the filesystem is modelled as explicit
predicates or content maps passed to each operation.  Machine-level details
of the external tabular engine (pandas) and of the JSON text codec (the
`json` module) are modelled explicitly where the repository's behaviour
depends on them, following the external-interface description of the spec.
-/

set_option linter.unnecessarySeqFocus false

abbrev Str := List Char

/-- Model of the Python substring test `pat in s` (for non-empty `pat`):
true when `pat` occurs contiguously inside `s`. -/
def containsSub (s pat : Str) : Bool :=
  match s with
  | [] => pat.isEmpty
  | _ :: rest => pat.isPrefixOf s || containsSub rest pat

/-- Fuel-driven worker for `pyReplace`; fuel bounds the length of the
remaining input so the recursion is structural. -/
def pyReplaceFuel : Nat → Str → Str → Str → Str
  | 0, s, _, _ => s
  | fuel + 1, s, pat, rep =>
    match s with
    | [] => []
    | c :: rest =>
      if pat ≠ [] ∧ pat.isPrefixOf (c :: rest) then
        rep ++ pyReplaceFuel fuel ((c :: rest).drop pat.length) pat rep
      else
        c :: pyReplaceFuel fuel rest pat rep

/-- Model of Python `s.replace(pat, rep)` for a non-empty pattern: replaces
every non-overlapping occurrence, scanning left to right. -/
def pyReplace (s pat rep : Str) : Str :=
  pyReplaceFuel s.length s pat rep

/-- Model of `os.path.join(a, b)` restricted to the cases the repository
exercises: an absolute second component discards the first, otherwise the
components are joined with a single separator. -/
def pyJoin (a b : Str) : Str :=
  if b.head? = some '/' then b
  else if a = [] then b
  else if a.getLast? = some '/' then a ++ b
  else a ++ '/' :: b

def csvExt : Str := ['.', 'c', 's', 'v']
def tsvExt : Str := ['.', 't', 's', 'v']

/-- Splits a string at every newline character; the result always has one
more element than the number of newlines. -/
def splitOnNL : Str → List Str
  | [] => [[]]
  | c :: rest =>
    let ls := splitOnNL rest
    if c = '\n' then [] :: ls
    else
      match ls with
      | [] => [[c]]
      | l :: ls' => (c :: l) :: ls'

/-- Joins lines into file contents, terminating each line with a newline,
as the delimited writer does. -/
def joinLines (lines : List Str) : Str :=
  match lines with
  | [] => []
  | l :: rest => l ++ '\n' :: joinLines rest

theorem splitOnNL_ne_nil (s : Str) : splitOnNL s ≠ [] := by
  induction s with
  | nil => simp [splitOnNL]
  | cons c rest ih =>
    simp only [splitOnNL]
    split
    · simp
    · cases h : splitOnNL rest with
      | nil => simp
      | cons l ls' => simp

theorem splitOnNL_append_nl (l r : Str) (h : '\n' ∉ l) :
    splitOnNL (l ++ '\n' :: r) = l :: splitOnNL r := by
  induction l with
  | nil => simp [splitOnNL]
  | cons c rest ih =>
    simp only [List.mem_cons, not_or] at h
    have hc : ¬ c = '\n' := fun hh => h.1 hh.symm
    simp only [List.cons_append, splitOnNL, if_neg hc]
    rw [show rest.append ('\n' :: r) = rest ++ '\n' :: r from rfl, ih h.2]

theorem splitOnNL_joinLines (lines : List Str)
    (h : ∀ l ∈ lines, '\n' ∉ l) :
    splitOnNL (joinLines lines) = lines ++ [[]] := by
  induction lines with
  | nil => simp [joinLines, splitOnNL]
  | cons l rest ih =>
    simp only [joinLines]
    rw [splitOnNL_append_nl l _ (h l (by simp))]
    simp [ih (fun x hx => h x (by simp [hx]))]

/-! ## Cell values

Model of the Python values that can inhabit a DataFrame cell in this
repository: scalars (int, bool, str) and the two structured kinds (list,
dict).  A missing cell (NaN) is `Option.none` at the cell level. -/

inductive Value where
  | vint (n : Int)
  | vbool (b : Bool)
  | vstr (s : Str)
  | vlist (xs : List Value)
  | vdict (kvs : List (Str × Value))

/-- Python runtime type of a value, as inspected by `series.map(type)` in
`dump_df`. -/
inductive TypeTag where
  | tInt
  | tBool
  | tStr
  | tList
  | tDict
deriving DecidableEq

def typeTag : Value → TypeTag
  | .vint _ => .tInt
  | .vbool _ => .tBool
  | .vstr _ => .tStr
  | .vlist _ => .tList
  | .vdict _ => .tDict

/-! ## Decimal numerals -/

def digitChar : Nat → Char
  | 0 => '0' | 1 => '1' | 2 => '2' | 3 => '3' | 4 => '4'
  | 5 => '5' | 6 => '6' | 7 => '7' | 8 => '8' | _ => '9'

def digitVal (c : Char) : Nat := c.toNat - 48

/-- Fuel-driven digit expansion of a natural number, most significant digit
first.  Correct whenever `n < fuel`. -/
def natDigitsFuel : Nat → Nat → Str
  | 0, _ => []
  | fuel + 1, n =>
    if n < 10 then [digitChar n]
    else natDigitsFuel fuel (n / 10) ++ [digitChar (n % 10)]

def natRepr (n : Nat) : Str := natDigitsFuel (n + 1) n

/-- Decimal representation of a Python int, as produced by `str` /
`json.dumps`. -/
def intRepr : Int → Str
  | .ofNat n => natRepr n
  | .negSucc m => '-' :: natRepr (m + 1)

def parseNat (s : Str) : Nat :=
  s.foldl (fun acc c => acc * 10 + digitVal c) 0

theorem natDigitsFuel_congr (fuel fuel' n : Nat) (h : n < fuel) (h' : n < fuel') :
    natDigitsFuel fuel n = natDigitsFuel fuel' n := by
  induction fuel generalizing fuel' n with
  | zero => omega
  | succ f ih =>
    cases fuel' with
    | zero => omega
    | succ f' =>
      simp only [natDigitsFuel]
      by_cases h10 : n < 10
      · simp [h10]
      · have hd : n / 10 < f := by omega
        have hd' : n / 10 < f' := by omega
        simp [h10, ih f' (n / 10) hd hd']

theorem natDigitsFuel_eq_natRepr (fuel n : Nat) (h : n < fuel) :
    natDigitsFuel fuel n = natRepr n :=
  natDigitsFuel_congr fuel (n + 1) n h (Nat.lt_succ_self n)

theorem digitVal_digitChar (n : Nat) (h : n < 10) :
    digitVal (digitChar n) = n := by
  interval_cases n <;> rfl

theorem digitChar_isDigit (n : Nat) (h : n < 10) :
    (digitChar n).isDigit = true := by
  interval_cases n <;> rfl

theorem natRepr_all_digit (n : Nat) : ∀ c ∈ natRepr n, c.isDigit := by
  induction n using Nat.strong_induction_on with
  | _ n ih =>
    intro c hc
    unfold natRepr natDigitsFuel at hc
    by_cases h10 : n < 10
    · simp only [if_pos h10, List.mem_singleton] at hc
      subst hc
      exact digitChar_isDigit n h10
    · simp only [if_neg h10, List.mem_append, List.mem_singleton] at hc
      rcases hc with hc | hc
      · rw [natDigitsFuel_eq_natRepr n (n / 10) (by omega)] at hc
        exact ih (n / 10) (by omega) c hc
      · subst hc
        exact digitChar_isDigit (n % 10) (Nat.mod_lt n (by omega))

theorem natRepr_ne_nil (n : Nat) : natRepr n ≠ [] := by
  unfold natRepr natDigitsFuel
  by_cases h10 : n < 10 <;> simp [h10]

theorem parseNat_acc (n : Nat) :
    ∀ acc, List.foldl (fun acc c => acc * 10 + digitVal c) acc (natRepr n) =
      acc * 10 ^ (natRepr n).length + n := by
  induction n using Nat.strong_induction_on with
  | _ n ih =>
    intro acc
    unfold natRepr natDigitsFuel
    by_cases h10 : n < 10
    · simp [h10, digitVal_digitChar n h10]
    · simp only [if_neg h10]
      rw [natDigitsFuel_eq_natRepr n (n / 10) (by omega)]
      rw [List.foldl_append, ih (n / 10) (by omega) acc]
      simp only [List.foldl_cons, List.foldl_nil, List.length_append,
        List.length_singleton]
      rw [digitVal_digitChar (n % 10) (Nat.mod_lt n (by omega))]
      ring_nf
      omega

theorem parseNat_natRepr (n : Nat) : parseNat (natRepr n) = n := by
  unfold parseNat
  rw [parseNat_acc n 0]
  simp

/-! ## Delimited-field shape predicates

Model of the external tabular engine's per-column type inference and
missing-value detection (spec section 6: numeric, boolean, text/generic),
for fields as they appear in a delimited file. -/

/-- Strings the reader treats as missing values (the engine's default
missing-value markers). -/
def naMarkers : List Str :=
  [[], ['N', 'a', 'N'], ['n', 'a', 'n'], ['N', 'A'], ['N', 'U', 'L', 'L'],
   ['n', 'u', 'l', 'l'], ['N', '/', 'A'], ['n', '/', 'a'], ['N', 'o', 'n', 'e']]

def isNAField (f : Str) : Bool := decide (f ∈ naMarkers)

def trueField : Str := ['T', 'r', 'u', 'e']
def falseField : Str := ['F', 'a', 'l', 's', 'e']

def isBoolField (f : Str) : Bool :=
  f = trueField ∨ f = falseField ∨
    f = ['T', 'R', 'U', 'E'] ∨ f = ['F', 'A', 'L', 'S', 'E']


/-- Integer-shaped field: an optional minus sign followed by one or more
decimal digits. -/
def isIntField (f : Str) : Bool :=
  match f with
  | [] => false
  | c :: rest =>
    if c = '-' then rest ≠ [] && rest.all Char.isDigit
    else (c :: rest).all Char.isDigit

def parseIntField (f : Str) : Int :=
  match f with
  | [] => 0
  | c :: rest =>
    if c = '-' then - (parseNat rest : Int) else (parseNat (c :: rest) : Int)

/-- Float-shaped field (optional sign, decimal digits containing a dot).
The modelled reader performs no float inference; this predicate only serves
to exclude such fields in hypotheses, since the real engine would type them
as floating point. -/
def isFloatField (f : Str) : Bool :=
  match f with
  | [] => false
  | c :: rest =>
    if c = '-' then
      rest.any (fun x => x = '.') && rest.all (fun x => x.isDigit || x = '.')
    else
      (c :: rest).any (fun x => x = '.') &&
        (c :: rest).all (fun x => x.isDigit || x = '.')

theorem isIntField_intRepr (n : Int) : isIntField (intRepr n) = true := by
  cases n with
  | ofNat m =>
    have hall : ∀ c ∈ natRepr m, c.isDigit := natRepr_all_digit m
    have hne : natRepr m ≠ [] := natRepr_ne_nil m
    simp only [intRepr]
    cases hh : natRepr m with
    | nil => exact absurd hh hne
    | cons c rest =>
      have hcd : c.isDigit := hall c (by simp [hh])
      have hcne : ¬ c = '-' := by
        intro hc
        rw [hc] at hcd
        simp [Char.isDigit] at hcd
      simp only [isIntField, if_neg hcne, List.all_eq_true]
      intro x hx
      exact hall x (by rw [hh]; exact hx)
  | negSucc m =>
    have h1 : natRepr (m + 1) ≠ [] := natRepr_ne_nil (m + 1)
    have h2 : List.all (natRepr (m + 1)) Char.isDigit = true := by
      rw [List.all_eq_true]
      intro x hx
      simpa using natRepr_all_digit (m + 1) x hx
    simp only [intRepr, isIntField, if_pos rfl]
    simp [h1, h2]

theorem parseIntField_intRepr (n : Int) : parseIntField (intRepr n) = n := by
  cases n with
  | ofNat m =>
    have hall : ∀ c ∈ natRepr m, c.isDigit := natRepr_all_digit m
    have hne : natRepr m ≠ [] := natRepr_ne_nil m
    simp only [intRepr]
    cases hh : natRepr m with
    | nil => exact absurd hh hne
    | cons c rest =>
      have hcd : c.isDigit := hall c (by simp [hh])
      have hcne : ¬ c = '-' := by
        intro hc
        rw [hc] at hcd
        simp [Char.isDigit] at hcd
      simp only [parseIntField, if_neg hcne]
      rw [← hh, parseNat_natRepr m]
      rfl
  | negSucc m =>
    simp only [intRepr, parseIntField, if_pos rfl, parseNat_natRepr (m + 1)]
    rw [Int.negSucc_eq]
    push_cast
    ring

/-! ## JSON text codec

Model of the Python `json` module as used by `csv2df.py`
(`json.dumps` on cell values, `json.loads` on fields), covering the value
domain above: ints, bools, strings, lists and string-keyed dicts.
`json.dumps` uses the default separators (a comma-space between items and
a colon-space after keys); `json.loads` is modelled as a recursive-descent
parser over the same subset (no floats, exponents or `null`, and string
escapes restricted to `\"` and `\\`). -/

def escJSONChar (c : Char) : Str :=
  if c = '"' ∨ c = '\\' then ['\\', c] else [c]

def escJSON : Str → Str
  | [] => []
  | c :: rest => escJSONChar c ++ escJSON rest

def trueLit : Str := ['t', 'r', 'u', 'e']
def falseLit : Str := ['f', 'a', 'l', 's', 'e']

mutual
def jsonDumps : Value → Str
  | .vint n => intRepr n
  | .vbool b => if b then trueLit else falseLit
  | .vstr s => '"' :: escJSON s ++ ['"']
  | .vlist xs => '[' :: jsonDumpsList xs ++ [']']
  | .vdict kvs => '{' :: jsonDumpsDict kvs ++ ['}']

def jsonDumpsList : List Value → Str
  | [] => []
  | [v] => jsonDumps v
  | v :: w :: rest => jsonDumps v ++ ',' :: ' ' :: jsonDumpsList (w :: rest)

def jsonDumpsDict : List (Str × Value) → Str
  | [] => []
  | [(k, v)] => '"' :: escJSON k ++ '"' :: ':' :: ' ' :: jsonDumps v
  | (k, v) :: kv :: rest =>
    '"' :: escJSON k ++ '"' :: ':' :: ' ' :: jsonDumps v ++
      ',' :: ' ' :: jsonDumpsDict (kv :: rest)
end

def isJSONSpace (c : Char) : Bool :=
  c = ' ' ∨ c = '\t' ∨ c = '\n' ∨ c = '\r'

def stripLeadingSpace : Str → Str
  | [] => []
  | c :: rest => if isJSONSpace c then stripLeadingSpace rest else c :: rest

/-- Scans a JSON string body after the opening quote; returns the decoded
content and the input after the closing quote. -/
def parseJStringAux : Str → Option (Str × Str)
  | [] => none
  | c :: rest =>
    if c = '"' then some ([], rest)
    else if c = '\\' then
      match rest with
      | [] => none
      | e :: rest2 =>
        if e = '"' ∨ e = '\\' then
          match parseJStringAux rest2 with
          | some (str, r) => some (e :: str, r)
          | none => none
        else none
    else
      match parseJStringAux rest with
      | some (str, r) => some (c :: str, r)
      | none => none

mutual
def jsonParseVal : Nat → Str → Option (Value × Str)
  | 0, _ => none
  | fuel + 1, s =>
    match s with
    | [] => none
    | c :: rest =>
      if c = '"' then
        match parseJStringAux rest with
        | some (str, r) => some (.vstr str, r)
        | none => none
      else if c = '[' then
        let r0 := stripLeadingSpace rest
        if r0.head? = some ']' then some (.vlist [], r0.tail)
        else
          match jsonParseItems fuel r0 with
          | some (xs, r') => some (.vlist xs, r')
          | none => none
      else if c = '{' then
        let r0 := stripLeadingSpace rest
        if r0.head? = some '}' then some (.vdict [], r0.tail)
        else
          match jsonParseMembers fuel r0 with
          | some (kvs, r') => some (.vdict kvs, r')
          | none => none
      else if trueLit.isPrefixOf (c :: rest) then
        some (.vbool true, (c :: rest).drop 4)
      else if falseLit.isPrefixOf (c :: rest) then
        some (.vbool false, (c :: rest).drop 5)
      else if c = '-' then
        if rest.takeWhile Char.isDigit = [] then none
        else some (.vint (- (parseNat (rest.takeWhile Char.isDigit) : Int)),
                   rest.dropWhile Char.isDigit)
      else if c.isDigit then
        some (.vint (parseNat ((c :: rest).takeWhile Char.isDigit) : Int),
              (c :: rest).dropWhile Char.isDigit)
      else none

def jsonParseItems : Nat → Str → Option (List Value × Str)
  | 0, _ => none
  | fuel + 1, s =>
    match jsonParseVal fuel (stripLeadingSpace s) with
    | none => none
    | some (v, r) =>
      let r1 := stripLeadingSpace r
      if r1.head? = some ',' then
        match jsonParseItems fuel r1.tail with
        | some (xs, r2) => some (v :: xs, r2)
        | none => none
      else if r1.head? = some ']' then some ([v], r1.tail)
      else none

def jsonParseMembers : Nat → Str → Option (List (Str × Value) × Str)
  | 0, _ => none
  | fuel + 1, s =>
    let s0 := stripLeadingSpace s
    if s0.head? = some '"' then
      match parseJStringAux s0.tail with
      | none => none
      | some (key, r1) =>
        let r2 := stripLeadingSpace r1
        if r2.head? = some ':' then
          match jsonParseVal fuel (stripLeadingSpace r2.tail) with
          | none => none
          | some (v, r3) =>
            let r4 := stripLeadingSpace r3
            if r4.head? = some ',' then
              match jsonParseMembers fuel r4.tail with
              | some (kvs, r5) => some ((key, v) :: kvs, r5)
              | none => none
            else if r4.head? = some '}' then some ([(key, v)], r4.tail)
            else none
        else none
    else none
end

/-- Model of `json.loads`: parse one value and require only whitespace to
remain.  The fuel is sufficient for any input of this length. -/
def jsonLoads (s : Str) : Option Value :=
  match jsonParseVal (2 * s.length + 2) (stripLeadingSpace s) with
  | some (v, r) => if stripLeadingSpace r = [] then some v else none
  | none => none

/-! ## JSON codec round-trip lemmas -/

theorem parseJStringAux_escJSON (s : Str) :
    ∀ r, parseJStringAux (escJSON s ++ '"' :: r) = some (s, r) := by
  induction s with
  | nil =>
    intro r
    rw [show escJSON [] ++ '"' :: r = '"' :: r from rfl, parseJStringAux.eq_def]
    simp
  | cons c rest ih =>
    intro r
    by_cases hc : c = '"' ∨ c = '\\'
    · have hesc : escJSONChar c = ['\\', c] := by simp [escJSONChar, hc]
      simp only [escJSON, hesc, List.cons_append, List.nil_append,
        List.append_assoc]
      rcases hc with hc | hc <;> subst hc <;>
        (rw [parseJStringAux.eq_def]; simp [ih r])
    · have hesc : escJSONChar c = [c] := by simp [escJSONChar, hc]
      push_neg at hc
      simp only [escJSON, hesc, List.cons_append, List.nil_append]
      rw [parseJStringAux.eq_def]
      simp [hc.1, hc.2, ih r]

/-- Leading-character classification of `json.dumps` output. -/
def jsonHeadClass (c : Char) : Prop :=
  c = '"' ∨ c = '[' ∨ c = '{' ∨ c = 't' ∨ c = 'f' ∨ c = '-' ∨ c.isDigit = true

theorem jsonDumps_head (v : Value) :
    ∃ c rest, jsonDumps v = c :: rest ∧ jsonHeadClass c := by
  cases v with
  | vint n =>
    cases n with
    | ofNat m =>
      have hall : ∀ c ∈ natRepr m, c.isDigit := natRepr_all_digit m
      have hne : natRepr m ≠ [] := natRepr_ne_nil m
      cases hh : natRepr m with
      | nil => exact absurd hh hne
      | cons c rest =>
        refine ⟨c, rest, ?_, ?_⟩
        · simp [jsonDumps, intRepr, hh]
        · exact Or.inr (Or.inr (Or.inr (Or.inr (Or.inr (Or.inr
            (hall c (by simp [hh])))))))
    | negSucc m =>
      exact ⟨'-', natRepr (m + 1), by simp [jsonDumps, intRepr], by
        right; right; right; right; right; left; rfl⟩
  | vbool b =>
    cases b with
    | true => exact ⟨'t', ['r', 'u', 'e'], by simp [jsonDumps, trueLit], by
        right; right; right; left; rfl⟩
    | false => exact ⟨'f', ['a', 'l', 's', 'e'], by simp [jsonDumps, falseLit], by
        right; right; right; right; left; rfl⟩
  | vstr s => exact ⟨'"', escJSON s ++ ['"'], by simp [jsonDumps], Or.inl rfl⟩
  | vlist xs => exact ⟨'[', jsonDumpsList xs ++ [']'], by simp [jsonDumps], by
      right; left; rfl⟩
  | vdict kvs => exact ⟨'{', jsonDumpsDict kvs ++ ['}'], by simp [jsonDumps], by
      right; right; left; rfl⟩

theorem jsonHeadClass_not_space (c : Char) (h : jsonHeadClass c) :
    isJSONSpace c = false := by
  rcases h with h | h | h | h | h | h | h
  all_goals first
    | (subst h; decide)
    | (by_cases hsp : isJSONSpace c = true
       · exfalso
         have : c = ' ' ∨ c = '\t' ∨ c = '\n' ∨ c = '\r' := by
           simpa [isJSONSpace, decide_eq_true_eq] using hsp
         rcases this with hc | hc | hc | hc <;> (subst hc; simp at h)
       · simpa using hsp)

theorem jsonDumps_ne_nil (v : Value) : jsonDumps v ≠ [] := by
  obtain ⟨c, rest, heq, _⟩ := jsonDumps_head v
  simp [heq]

theorem jsonDumps_length_pos (v : Value) : 1 ≤ (jsonDumps v).length := by
  obtain ⟨c, rest, heq, _⟩ := jsonDumps_head v
  simp [heq]

theorem stripLeadingSpace_cons_of_not_space (c : Char) (rest : Str)
    (h : isJSONSpace c = false) :
    stripLeadingSpace (c :: rest) = c :: rest := by
  simp [stripLeadingSpace, h]

theorem stripLeadingSpace_dumps (v : Value) (r : Str) :
    stripLeadingSpace (jsonDumps v ++ r) = jsonDumps v ++ r := by
  obtain ⟨c, rest, heq, hcl⟩ := jsonDumps_head v
  rw [heq, List.cons_append]
  exact stripLeadingSpace_cons_of_not_space c (rest ++ r)
    (jsonHeadClass_not_space c hcl)

theorem takeWhile_append_all (p : Char → Bool) (l r : Str)
    (hl : ∀ c ∈ l, p c) (hr : ∀ c, r.head? = some c → p c = false) :
    (l ++ r).takeWhile p = l ∧ (l ++ r).dropWhile p = r := by
  induction l with
  | nil =>
    cases r with
    | nil => simp
    | cons c rest =>
      have := hr c rfl
      simp [List.takeWhile, List.dropWhile, this]
  | cons c rest ih =>
    have hc : p c := hl c (by simp)
    have ih' := ih (fun x hx => hl x (by simp [hx]))
    simp [List.takeWhile, List.dropWhile, hc, ih'.1, ih'.2]

/-- True when the string does not start with a decimal digit (so that an
integer literal immediately before it cannot absorb its leading
characters). -/
def nonDigitStart : Str → Prop
  | [] => True
  | c :: _ => c.isDigit = false

theorem nonDigitStart_cons (c : Char) (x : Str) (h : c.isDigit = false) :
    nonDigitStart (c :: x) := h

theorem nonDigitStart_head (r : Str) (h : nonDigitStart r) :
    ∀ c, r.head? = some c → c.isDigit = false := by
  cases r with
  | nil => intro c hc; simp at hc
  | cons c0 rest =>
    intro c hc
    simp only [List.head?_cons] at hc
    injection hc with hc
    subst hc
    exact h

theorem isDigit_ne_specials (c : Char) (h : c.isDigit = true) :
    ¬ c = '"' ∧ ¬ c = '[' ∧ ¬ c = '{' ∧ ¬ c = 't' ∧ ¬ c = 'f' ∧ ¬ c = '-' := by
  refine ⟨?_, ?_, ?_, ?_, ?_, ?_⟩ <;>
    (intro heq; subst heq; exact absurd h (by decide))

theorem jsonHeadClass_ne_closers (c : Char) (h : jsonHeadClass c) :
    ¬ c = ']' ∧ ¬ c = '}' := by
  constructor <;> intro heq <;> subst heq <;>
    (rcases h with h | h | h | h | h | h | h <;> simp_all)

theorem isPrefixOf_append_self (l r : Str) : l.isPrefixOf (l ++ r) = true := by
  induction l with
  | nil => simp [List.isPrefixOf]
  | cons c rest ih => simp [List.isPrefixOf, ih]

/-- Shape of the dumped form of a non-empty list: the first element's text
comes first. -/
theorem jsonDumpsList_cons_shape (v : Value) (vs : List Value) :
    ∃ t, jsonDumpsList (v :: vs) = jsonDumps v ++ t := by
  cases vs with
  | nil => exact ⟨[], by simp [jsonDumpsList]⟩
  | cons w ws => exact ⟨',' :: ' ' :: jsonDumpsList (w :: ws), by
      simp [jsonDumpsList]⟩

theorem stripLeadingSpace_dumpsList_append (v : Value) (vs : List Value)
    (x : Str) :
    stripLeadingSpace (jsonDumpsList (v :: vs) ++ x) =
      jsonDumpsList (v :: vs) ++ x := by
  obtain ⟨t, ht⟩ := jsonDumpsList_cons_shape v vs
  rw [ht, List.append_assoc]
  exact stripLeadingSpace_dumps v (t ++ x)

theorem stripLeadingSpace_dumpsDict_append (k : Str) (v : Value)
    (kvs : List (Str × Value)) (x : Str) :
    stripLeadingSpace (jsonDumpsDict ((k, v) :: kvs) ++ x) =
      jsonDumpsDict ((k, v) :: kvs) ++ x := by
  have hsh : ∃ t, jsonDumpsDict ((k, v) :: kvs) = '"' :: t := by
    cases kvs with
    | nil => exact ⟨escJSON k ++ '"' :: ':' :: ' ' :: jsonDumps v, by
        simp [jsonDumpsDict]⟩
    | cons kv rest => exact ⟨escJSON k ++ '"' :: ':' :: ' ' :: jsonDumps v ++
        ',' :: ' ' :: jsonDumpsDict (kv :: rest), by simp [jsonDumpsDict]⟩
  obtain ⟨t, ht⟩ := hsh
  rw [ht, List.cons_append]
  exact stripLeadingSpace_cons_of_not_space '"' (t ++ x) (by decide)

theorem stepVal_vstr (fuel : Nat) (s r x : Str)
    (hx : parseJStringAux x = some (s, r)) :
    jsonParseVal (fuel + 1) ('"' :: x) = some (.vstr s, r) := by
  rw [jsonParseVal.eq_def]
  simp [hx]

theorem stepVal_lbrack (fuel : Nat) (x y : Str)
    (h : stripLeadingSpace x = ']' :: y) :
    jsonParseVal (fuel + 1) ('[' :: x) = some (.vlist [], y) := by
  rw [jsonParseVal.eq_def]
  simp [h]

theorem stepVal_lbrack_items (fuel : Nat) (x y : Str) (xs : List Value)
    (hhead : (stripLeadingSpace x).head? ≠ some ']')
    (hitems : jsonParseItems fuel (stripLeadingSpace x) = some (xs, y)) :
    jsonParseVal (fuel + 1) ('[' :: x) = some (.vlist xs, y) := by
  rw [jsonParseVal.eq_def]
  simp [hhead, hitems]

theorem stepVal_lbrace (fuel : Nat) (x y : Str)
    (h : stripLeadingSpace x = '}' :: y) :
    jsonParseVal (fuel + 1) ('{' :: x) = some (.vdict [], y) := by
  rw [jsonParseVal.eq_def]
  simp [h]

theorem stepVal_lbrace_members (fuel : Nat) (x y : Str)
    (kvs : List (Str × Value))
    (hhead : (stripLeadingSpace x).head? ≠ some '}')
    (hmembers : jsonParseMembers fuel (stripLeadingSpace x) = some (kvs, y)) :
    jsonParseVal (fuel + 1) ('{' :: x) = some (.vdict kvs, y) := by
  rw [jsonParseVal.eq_def]
  simp [hhead, hmembers]

theorem stepVal_true (fuel : Nat) (r : Str) :
    jsonParseVal (fuel + 1) (trueLit ++ r) = some (.vbool true, r) := by
  rw [show trueLit ++ r = 't' :: 'r' :: 'u' :: 'e' :: r from rfl]
  rw [jsonParseVal.eq_def]
  simp [trueLit, falseLit, List.isPrefixOf]

theorem stepVal_false (fuel : Nat) (r : Str) :
    jsonParseVal (fuel + 1) (falseLit ++ r) = some (.vbool false, r) := by
  rw [show falseLit ++ r = 'f' :: 'a' :: 'l' :: 's' :: 'e' :: r from rfl]
  rw [jsonParseVal.eq_def]
  simp [trueLit, falseLit, List.isPrefixOf]

theorem stepVal_digit (fuel : Nat) (c : Char) (x : Str)
    (hcd : c.isDigit = true) :
    jsonParseVal (fuel + 1) (c :: x) =
      some (.vint (parseNat ((c :: x).takeWhile Char.isDigit) : Int),
            (c :: x).dropWhile Char.isDigit) := by
  obtain ⟨h1, h2, h3, h4, h5, h6⟩ := isDigit_ne_specials c hcd
  have ht : ('t' == c) = false := beq_eq_false_iff_ne.mpr (fun hx => h4 hx.symm)
  have hfc : ('f' == c) = false := beq_eq_false_iff_ne.mpr (fun hx => h5 hx.symm)
  rw [jsonParseVal.eq_def]
  rw [show trueLit = 't' :: ['r', 'u', 'e'] from rfl,
      show falseLit = 'f' :: ['a', 'l', 's', 'e'] from rfl]
  simp [h1, h2, h3, h6, hcd, List.isPrefixOf, ht, hfc]

theorem stepVal_minus (fuel : Nat) (x : Str)
    (hne : x.takeWhile Char.isDigit ≠ []) :
    jsonParseVal (fuel + 1) ('-' :: x) =
      some (.vint (- (parseNat (x.takeWhile Char.isDigit) : Int)),
            x.dropWhile Char.isDigit) := by
  rw [jsonParseVal.eq_def]
  rw [show trueLit = 't' :: ['r', 'u', 'e'] from rfl,
      show falseLit = 'f' :: ['a', 'l', 's', 'e'] from rfl]
  simp [List.isPrefixOf, hne]


theorem jsonParseItems_succ (fuel : Nat) (s : Str) :
    jsonParseItems (fuel + 1) s =
      match jsonParseVal fuel (stripLeadingSpace s) with
      | none => none
      | some (v, r) =>
        if (stripLeadingSpace r).head? = some ',' then
          match jsonParseItems fuel ((stripLeadingSpace r).tail) with
          | some (xs, r2) => some (v :: xs, r2)
          | none => none
        else if (stripLeadingSpace r).head? = some ']' then
          some ([v], (stripLeadingSpace r).tail)
        else none := rfl

theorem jsonParseMembers_succ (fuel : Nat) (s : Str) :
    jsonParseMembers (fuel + 1) s =
      if (stripLeadingSpace s).head? = some '"' then
        match parseJStringAux (stripLeadingSpace s).tail with
        | none => none
        | some (key, r1) =>
          if (stripLeadingSpace r1).head? = some ':' then
            match jsonParseVal fuel
                (stripLeadingSpace ((stripLeadingSpace r1).tail)) with
            | none => none
            | some (v, r3) =>
              if (stripLeadingSpace r3).head? = some ',' then
                match jsonParseMembers fuel ((stripLeadingSpace r3).tail) with
                | some (kvs, r5) => some ((key, v) :: kvs, r5)
                | none => none
              else if (stripLeadingSpace r3).head? = some '}' then
                some ([(key, v)], (stripLeadingSpace r3).tail)
              else none
          else none
      else none := rfl

theorem stripLeadingSpace_space (x : Str) :
    stripLeadingSpace (' ' :: x) = stripLeadingSpace x := by
  simp [stripLeadingSpace, isJSONSpace]

theorem jsonParse_dumps (fuel : Nat) :
    (∀ v r, (jsonDumps v).length ≤ fuel → nonDigitStart r →
      jsonParseVal fuel (jsonDumps v ++ r) = some (v, r)) ∧
    (∀ xs r s, xs ≠ [] → (jsonDumpsList xs).length + 1 ≤ fuel →
      stripLeadingSpace s = jsonDumpsList xs ++ ']' :: r →
      jsonParseItems fuel s = some (xs, r)) ∧
    (∀ kvs r s, kvs ≠ [] → (jsonDumpsDict kvs).length + 1 ≤ fuel →
      stripLeadingSpace s = jsonDumpsDict kvs ++ '}' :: r →
      jsonParseMembers fuel s = some (kvs, r)) := by
  induction fuel with
  | zero =>
    refine ⟨fun v r hf _ => ?_, fun xs r s _ hf _ => ?_,
            fun kvs r s _ hf _ => ?_⟩
    · have := jsonDumps_length_pos v
      omega
    · omega
    · omega
  | succ fuel ih =>
    obtain ⟨ihV, ihI, ihM⟩ := ih
    refine ⟨?_, ?_, ?_⟩
    · intro v r hf hr
      cases v with
      | vint n =>
        cases n with
        | ofNat m =>
          have hall : ∀ c ∈ natRepr m, c.isDigit := natRepr_all_digit m
          cases hh : natRepr m with
          | nil => exact absurd hh (natRepr_ne_nil m)
          | cons c cs =>
            have hcd : c.isDigit = true := by simpa using hall c (by simp [hh])
            have htw := takeWhile_append_all Char.isDigit (natRepr m) r
              (fun x hx => by simpa using hall x hx) (nonDigitStart_head r hr)
            have hshape : jsonDumps (.vint (Int.ofNat m)) ++ r =
                c :: (cs ++ r) := by
              simp [jsonDumps, intRepr, hh]
            rw [hshape, stepVal_digit fuel c (cs ++ r) hcd]
            rw [show c :: (cs ++ r) = natRepr m ++ r by simp [hh]]
            rw [htw.1, htw.2, parseNat_natRepr]
            rfl
        | negSucc m =>
          have hall : ∀ c ∈ natRepr (m + 1), c.isDigit :=
            natRepr_all_digit (m + 1)
          have htw := takeWhile_append_all Char.isDigit (natRepr (m + 1)) r
            (fun x hx => by simpa using hall x hx) (nonDigitStart_head r hr)
          have hshape : jsonDumps (.vint (Int.negSucc m)) ++ r =
              '-' :: (natRepr (m + 1) ++ r) := by
            simp [jsonDumps, intRepr]
          rw [hshape, stepVal_minus fuel (natRepr (m + 1) ++ r)
            (by rw [htw.1]; exact natRepr_ne_nil (m + 1))]
          rw [htw.1, htw.2, parseNat_natRepr]
          rw [show - (((m + 1 : Nat) : Int)) = Int.negSucc m by
            rw [Int.negSucc_eq]; push_cast; ring]
      | vbool b =>
        cases b with
        | true =>
          rw [show jsonDumps (.vbool true) ++ r = trueLit ++ r by
            simp [jsonDumps]]
          exact stepVal_true fuel r
        | false =>
          rw [show jsonDumps (.vbool false) ++ r = falseLit ++ r by
            simp [jsonDumps]]
          exact stepVal_false fuel r
      | vstr s0 =>
        rw [show jsonDumps (.vstr s0) ++ r =
            '"' :: (escJSON s0 ++ '"' :: r) by simp [jsonDumps]]
        exact stepVal_vstr fuel s0 r _ (parseJStringAux_escJSON s0 r)
      | vlist xs =>
        rw [show jsonDumps (.vlist xs) ++ r =
            '[' :: (jsonDumpsList xs ++ ']' :: r) by simp [jsonDumps]]
        cases xs with
        | nil =>
          refine stepVal_lbrack fuel _ r ?_
          rw [show jsonDumpsList [] ++ ']' :: r = ']' :: r from rfl]
          exact stripLeadingSpace_cons_of_not_space ']' r (by decide)
        | cons v vs =>
          have hstrip := stripLeadingSpace_dumpsList_append v vs (']' :: r)
          obtain ⟨t, htl⟩ := jsonDumpsList_cons_shape v vs
          obtain ⟨c, cr, hceq, hcls⟩ := jsonDumps_head v
          have hlen : (jsonDumpsList (v :: vs)).length + 1 ≤ fuel := by
            have hq : (jsonDumps (.vlist (v :: vs))).length =
                (jsonDumpsList (v :: vs)).length + 2 := by
              simp [jsonDumps]
            omega
          refine stepVal_lbrack_items fuel _ r (v :: vs) ?_ ?_
          · rw [hstrip, htl, hceq]
            simp only [List.cons_append, List.head?]
            intro hcon
            injection hcon with hcon
            exact (jsonHeadClass_ne_closers c hcls).1 hcon
          · rw [hstrip]
            exact ihI (v :: vs) r _ (by simp) hlen hstrip
      | vdict kvs =>
        rw [show jsonDumps (.vdict kvs) ++ r =
            '{' :: (jsonDumpsDict kvs ++ '}' :: r) by simp [jsonDumps]]
        cases kvs with
        | nil =>
          refine stepVal_lbrace fuel _ r ?_
          rw [show jsonDumpsDict [] ++ '}' :: r = '}' :: r from rfl]
          exact stripLeadingSpace_cons_of_not_space '}' r (by decide)
        | cons kv rest =>
          obtain ⟨k, v⟩ := kv
          have hstrip := stripLeadingSpace_dumpsDict_append k v rest ('}' :: r)
          have hlen : (jsonDumpsDict ((k, v) :: rest)).length + 1 ≤ fuel := by
            have hq : (jsonDumps (.vdict ((k, v) :: rest))).length =
                (jsonDumpsDict ((k, v) :: rest)).length + 2 := by
              simp [jsonDumps]
            omega
          refine stepVal_lbrace_members fuel _ r ((k, v) :: rest) ?_ ?_
          · rw [hstrip]
            have hsh : ∃ t, jsonDumpsDict ((k, v) :: rest) = '"' :: t := by
              cases rest with
              | nil => exact ⟨escJSON k ++ '"' :: ':' :: ' ' :: jsonDumps v, by
                  simp [jsonDumpsDict]⟩
              | cons kv2 rest2 => exact ⟨escJSON k ++ '"' :: ':' :: ' ' ::
                  jsonDumps v ++ ',' :: ' ' :: jsonDumpsDict (kv2 :: rest2), by
                  simp [jsonDumpsDict]⟩
            obtain ⟨t, ht⟩ := hsh
            rw [ht]
            simp
          · rw [hstrip]
            exact ihM ((k, v) :: rest) r _ (by simp) hlen hstrip
    · intro xs r s hne hf hs
      cases xs with
      | nil => exact absurd rfl hne
      | cons v vs =>
        cases vs with
        | nil =>
          have hdl : jsonDumpsList [v] = jsonDumps v := by simp [jsonDumpsList]
          rw [hdl] at hs hf
          have hV := ihV v (']' :: r) (by omega)
            (nonDigitStart_cons ']' r (by decide))
          rw [jsonParseItems_succ, hs, hV]
          simp [stripLeadingSpace_cons_of_not_space ']' r (by decide)]
        | cons w ws =>
          have hdl : jsonDumpsList (v :: w :: ws) =
              jsonDumps v ++ ',' :: ' ' :: jsonDumpsList (w :: ws) := by
            simp [jsonDumpsList]
          rw [hdl] at hs hf
          simp only [List.append_assoc, List.cons_append] at hs
          have hflen : (jsonDumps v).length ≤ fuel := by
            simp only [List.length_append, List.length_cons] at hf
            omega
          have hV := ihV v
            (',' :: ' ' :: (jsonDumpsList (w :: ws) ++ ']' :: r))
            hflen (nonDigitStart_cons ',' _ (by decide))
          have hstrip2 : stripLeadingSpace
              (' ' :: (jsonDumpsList (w :: ws) ++ ']' :: r)) =
              jsonDumpsList (w :: ws) ++ ']' :: r := by
            rw [stripLeadingSpace_space]
            exact stripLeadingSpace_dumpsList_append w ws (']' :: r)
          have hI := ihI (w :: ws) r
            (' ' :: (jsonDumpsList (w :: ws) ++ ']' :: r)) (by simp)
            (by simp only [List.length_append, List.length_cons] at hf ⊢
                omega)
            hstrip2
          rw [jsonParseItems_succ, hs, hV]
          simp [stripLeadingSpace_cons_of_not_space ','
            (' ' :: (jsonDumpsList (w :: ws) ++ ']' :: r)) (by decide), hI]
    · intro kvs r s hne hf hs
      cases kvs with
      | nil => exact absurd rfl hne
      | cons kv rest =>
        obtain ⟨k, v⟩ := kv
        cases rest with
        | nil =>
          have hdl : jsonDumpsDict [(k, v)] =
              '"' :: escJSON k ++ '"' :: ':' :: ' ' :: jsonDumps v := by
            simp [jsonDumpsDict]
          rw [hdl] at hs hf
          simp only [List.append_assoc, List.cons_append] at hs
          have hV := ihV v ('}' :: r)
            (by simp only [List.length_append, List.length_cons] at hf
                omega)
            (nonDigitStart_cons '}' r (by decide))
          have hsv : stripLeadingSpace (' ' :: (jsonDumps v ++ '}' :: r)) =
              jsonDumps v ++ '}' :: r := by
            rw [stripLeadingSpace_space]
            exact stripLeadingSpace_dumps v ('}' :: r)
          rw [jsonParseMembers_succ, hs]
          simp only [List.head?_cons, if_true]
          simp only [List.tail_cons]
          rw [parseJStringAux_escJSON k (':' :: ' ' :: (jsonDumps v ++ '}' :: r))]
          simp [stripLeadingSpace_cons_of_not_space ':'
              (' ' :: (jsonDumps v ++ '}' :: r)) (by decide),
            hsv, hV,
            stripLeadingSpace_cons_of_not_space '}' r (by decide)]
        | cons kv2 rest2 =>
          have hdl : jsonDumpsDict ((k, v) :: kv2 :: rest2) =
              '"' :: escJSON k ++ '"' :: ':' :: ' ' :: jsonDumps v ++
                ',' :: ' ' :: jsonDumpsDict (kv2 :: rest2) := by
            simp [jsonDumpsDict]
          rw [hdl] at hs hf
          simp only [List.append_assoc, List.cons_append] at hs
          have hV := ihV v
            (',' :: ' ' :: (jsonDumpsDict (kv2 :: rest2) ++ '}' :: r))
            (by simp only [List.length_append, List.length_cons] at hf
                omega)
            (nonDigitStart_cons ',' _ (by decide))
          have hsm : stripLeadingSpace
              (' ' :: (jsonDumpsDict (kv2 :: rest2) ++ '}' :: r)) =
              jsonDumpsDict (kv2 :: rest2) ++ '}' :: r := by
            rw [stripLeadingSpace_space]
            obtain ⟨k2, v2⟩ := kv2
            exact stripLeadingSpace_dumpsDict_append k2 v2 rest2 ('}' :: r)
          have hM := ihM (kv2 :: rest2) r
            (' ' :: (jsonDumpsDict (kv2 :: rest2) ++ '}' :: r)) (by simp)
            (by simp only [List.length_append, List.length_cons] at hf ⊢
                omega)
            hsm
          have hsv2 : stripLeadingSpace (' ' :: (jsonDumps v ++
              ',' :: ' ' :: (jsonDumpsDict (kv2 :: rest2) ++ '}' :: r))) =
              jsonDumps v ++
                ',' :: ' ' :: (jsonDumpsDict (kv2 :: rest2) ++ '}' :: r) := by
            rw [stripLeadingSpace_space]
            exact stripLeadingSpace_dumps v _
          rw [jsonParseMembers_succ, hs]
          simp only [List.head?_cons, if_true]
          simp only [List.tail_cons]
          rw [parseJStringAux_escJSON k (':' :: ' ' :: (jsonDumps v ++
            ',' :: ' ' :: (jsonDumpsDict (kv2 :: rest2) ++ '}' :: r)))]
          simp [stripLeadingSpace_cons_of_not_space ':'
              (' ' :: (jsonDumps v ++ ',' :: ' ' ::
                (jsonDumpsDict (kv2 :: rest2) ++ '}' :: r))) (by decide),
            hsv2, hV,
            stripLeadingSpace_cons_of_not_space ','
              (' ' :: (jsonDumpsDict (kv2 :: rest2) ++ '}' :: r)) (by decide),
            hM]

theorem stripLeadingSpace_jsonDumps (v : Value) :
    stripLeadingSpace (jsonDumps v) = jsonDumps v := by
  obtain ⟨c, rest, heq, hcls⟩ := jsonDumps_head v
  rw [heq]
  exact stripLeadingSpace_cons_of_not_space c rest (jsonHeadClass_not_space c hcls)

/-- The modelled `json.loads` inverts the modelled `json.dumps` on every
value of the modelled domain. -/
theorem jsonLoads_jsonDumps (v : Value) : jsonLoads (jsonDumps v) = some v := by
  unfold jsonLoads
  rw [stripLeadingSpace_jsonDumps]
  have h := (jsonParse_dumps (2 * (jsonDumps v).length + 2)).1 v []
    (by omega) trivial
  rw [List.append_nil] at h
  rw [h]
  rfl

/-! ## Delimited text writer and reader

Model of the external engine's delimited-text layer (spec section 6): one
record per line, fields joined by the delimiter, and a field quoted exactly
when it contains the delimiter, the quote character, or a line break
(minimal quoting), with embedded quotes doubled. -/

def quoteNeeded (sep : Char) (f : Str) : Bool :=
  f.any (fun c => c = sep || c = '"' || c = '\n' || c = '\r')

def escQuotes : Str → Str
  | [] => []
  | c :: rest =>
    if c = '"' then '"' :: '"' :: escQuotes rest else c :: escQuotes rest

def quoteField (sep : Char) (f : Str) : Str :=
  if quoteNeeded sep f then '"' :: (escQuotes f ++ ['"']) else f

def csvLine (sep : Char) : List Str → Str
  | [] => []
  | [f] => quoteField sep f
  | f :: g :: rest => quoteField sep f ++ sep :: csvLine sep (g :: rest)

/-- Scans a quoted field body (input begins after the opening quote);
returns the field content and the input after the closing quote. -/
def scanQuoted : Str → Str × Str
  | [] => ([], [])
  | c :: rest =>
    if c = '"' then
      match rest with
      | [] => ([], [])
      | c2 :: rest2 =>
        if c2 = '"' then
          let p := scanQuoted rest2
          ('"' :: p.1, p.2)
        else ([], rest)
    else
      let p := scanQuoted rest
      (c :: p.1, p.2)

/-- Scans an unquoted field up to the delimiter; the second component is
`some rest` when a delimiter was consumed and `none` at end of line. -/
def takeField (sep : Char) : Str → Str × Option Str
  | [] => ([], none)
  | c :: rest =>
    if c = sep then ([], some rest)
    else
      let p := takeField sep rest
      (c :: p.1, p.2)

/-- Fuel-driven field splitter for one delimited record (well-formed input
per the writer above; on malformed input any total behaviour is an
acceptable model of the engine). -/
def parseFieldsFuel (sep : Char) : Nat → Str → List Str
  | 0, s => [s]
  | fuel + 1, s =>
    match s with
    | [] => [[]]
    | c :: rest =>
      if c = '"' then
        let p := scanQuoted rest
        match p.2 with
        | [] => [p.1]
        | _ :: r2 => p.1 :: parseFieldsFuel sep fuel r2
      else
        let p := takeField sep (c :: rest)
        match p.2 with
        | none => [p.1]
        | some r2 => p.1 :: parseFieldsFuel sep fuel r2

def splitFields (sep : Char) (s : Str) : List Str :=
  parseFieldsFuel sep (s.length + 1) s

theorem scanQuoted_escQuotes (f : Str) :
    ∀ r, (r = [] ∨ ∀ c2 r2, r = c2 :: r2 → c2 ≠ '"') →
      scanQuoted (escQuotes f ++ '"' :: r) = (f, r) := by
  induction f with
  | nil =>
    intro r hr
    rw [show escQuotes [] ++ '"' :: r = '"' :: r from rfl, scanQuoted.eq_def]
    rcases hr with hr | hr
    · subst hr
      simp
    · cases r with
      | nil => simp
      | cons c2 r2 =>
        have := hr c2 r2 rfl
        simp [this]
  | cons c rest ih =>
    intro r hr
    by_cases hc : c = '"'
    · subst hc
      rw [show escQuotes ('"' :: rest) ++ '"' :: r =
          '"' :: '"' :: (escQuotes rest ++ '"' :: r) by simp [escQuotes]]
      rw [scanQuoted.eq_def]
      simp [ih r hr]
    · rw [show escQuotes (c :: rest) ++ '"' :: r =
          c :: (escQuotes rest ++ '"' :: r) by simp [escQuotes, hc]]
      rw [scanQuoted.eq_def]
      simp [hc, ih r hr]

theorem takeField_no_sep (sep : Char) (f : Str) (hf : sep ∉ f) :
    takeField sep f = (f, none) := by
  induction f with
  | nil => rfl
  | cons c rest ih =>
    simp only [List.mem_cons, not_or] at hf
    have hc : ¬ c = sep := fun hh => hf.1 hh.symm
    rw [takeField.eq_def]
    simp [hc, ih hf.2]

theorem takeField_append_sep (sep : Char) (f r : Str) (hf : sep ∉ f) :
    takeField sep (f ++ sep :: r) = (f, some r) := by
  induction f with
  | nil =>
    rw [show ([] : Str) ++ sep :: r = sep :: r from rfl, takeField.eq_def]
    simp
  | cons c rest ih =>
    simp only [List.mem_cons, not_or] at hf
    have hc : ¬ c = sep := fun hh => hf.1 hh.symm
    rw [show (c :: rest) ++ sep :: r = c :: (rest ++ sep :: r) from rfl,
      takeField.eq_def]
    simp [hc, ih hf.2]

theorem quoteNeeded_false_facts (sep : Char) (f : Str)
    (h : quoteNeeded sep f = false) : sep ∉ f ∧ '"' ∉ f := by
  simp only [quoteNeeded, List.any_eq_false] at h
  constructor
  · intro hm
    have hh := h sep hm
    simp at hh
  · intro hm
    have hh := h '"' hm
    simp at hh

theorem parseFieldsFuel_csvLine (sep : Char) (hq : sep ≠ '"') :
    ∀ (fields : List Str) (fuel : Nat), fields ≠ [] →
      fields.length ≤ fuel + 1 →
      parseFieldsFuel sep (fuel + 1) (csvLine sep fields) = fields := by
  intro fields
  induction fields with
  | nil => intro fuel h _; exact absurd rfl h
  | cons f gs ih =>
    intro fuel _ hlen
    cases gs with
    | nil =>
      rw [show csvLine sep [f] = quoteField sep f from rfl]
      by_cases hn : quoteNeeded sep f = true
      · rw [show quoteField sep f = '"' :: (escQuotes f ++ ['"']) by
          simp [quoteField, hn]]
        rw [parseFieldsFuel.eq_def]
        have hscan := scanQuoted_escQuotes f [] (Or.inl rfl)
        simp only [show escQuotes f ++ ['"'] = escQuotes f ++ '"' :: [] from
          rfl]
        simp [hscan]
      · have hn' : quoteNeeded sep f = false := by
          simpa using hn
        obtain ⟨hsep, hquote⟩ := quoteNeeded_false_facts sep f hn'
        rw [show quoteField sep f = f by simp [quoteField, hn']]
        rw [parseFieldsFuel.eq_def]
        cases f with
        | nil => simp
        | cons c rest =>
          have hc : ¬ c = '"' := by
            intro hh
            exact hquote (by simp [hh])
          simp [hc, takeField_no_sep sep (c :: rest) hsep]
    | cons g rest =>
      have hlen2 : (g :: rest).length ≤ fuel := by
        simp only [List.length_cons] at hlen ⊢
        omega
      cases fuel with
      | zero => simp at hlen2
      | succ fuel0 =>
        have ihg := ih fuel0 (by simp) (by omega)
        rw [show csvLine sep (f :: g :: rest) =
            quoteField sep f ++ sep :: csvLine sep (g :: rest) from rfl]
        by_cases hn : quoteNeeded sep f = true
        · rw [show quoteField sep f = '"' :: (escQuotes f ++ ['"']) by
            simp [quoteField, hn]]
          rw [show ('"' :: (escQuotes f ++ ['"'])) ++
              sep :: csvLine sep (g :: rest) =
              '"' :: (escQuotes f ++ '"' :: (sep :: csvLine sep (g :: rest)))
              by simp]
          rw [parseFieldsFuel.eq_def]
          have hscan := scanQuoted_escQuotes f (sep :: csvLine sep (g :: rest))
            (Or.inr (by
              intro c2 r2 hr
              injection hr with h1 _
              subst h1
              exact hq))
          simp [hscan, ihg]
        · have hn' : quoteNeeded sep f = false := by
            simpa using hn
          obtain ⟨hsep, hquote⟩ := quoteNeeded_false_facts sep f hn'
          rw [show quoteField sep f = f by simp [quoteField, hn']]
          cases f with
          | nil =>
            rw [show ([] : Str) ++ sep :: csvLine sep (g :: rest) =
                sep :: csvLine sep (g :: rest) from rfl]
            rw [parseFieldsFuel.eq_def]
            have hc : ¬ sep = '"' := hq
            simp only [hc, if_false, if_neg hc]
            rw [show takeField sep (sep :: csvLine sep (g :: rest)) =
                ([], some (csvLine sep (g :: rest))) by
              rw [takeField.eq_def]; simp]
            simp [ihg]
          | cons c crest =>
            have hc : ¬ c = '"' := by
              intro hh
              exact hquote (by simp [hh])
            rw [show (c :: crest) ++ sep :: csvLine sep (g :: rest) =
                c :: (crest ++ sep :: csvLine sep (g :: rest)) from rfl]
            rw [parseFieldsFuel.eq_def]
            have htf := takeField_append_sep sep (c :: crest)
              (csvLine sep (g :: rest)) hsep
            rw [show (c :: crest) ++ sep :: csvLine sep (g :: rest) =
                c :: (crest ++ sep :: csvLine sep (g :: rest)) from rfl] at htf
            simp [hc, htf, ihg]

theorem csvLine_length_ge (sep : Char) (fields : List Str) :
    fields.length ≤ (csvLine sep fields).length + 1 := by
  induction fields with
  | nil => simp [csvLine]
  | cons f gs ih =>
    cases gs with
    | nil => simp [csvLine]
    | cons g rest =>
      rw [show csvLine sep (f :: g :: rest) =
          quoteField sep f ++ sep :: csvLine sep (g :: rest) from rfl]
      simp only [List.length_cons, List.length_append] at ih ⊢
      omega

/-- Reading back one written record recovers the fields exactly. -/
theorem splitFields_csvLine (sep : Char) (hq : sep ≠ '"')
    (fields : List Str) (hne : fields ≠ []) :
    splitFields sep (csvLine sep fields) = fields := by
  unfold splitFields
  exact parseFieldsFuel_csvLine sep hq fields (csvLine sep fields).length hne
    (by have := csvLine_length_ge sep fields; omega)

/-! ## Table model -/

abbrev Cell := Option Value
abbrev Col := List Cell

/-- Index of a DataFrame, by runtime type, as `dump_df` inspects it:
`RangeIndex`, `Int64Index`, or a generic object index (e.g. string
labels). -/
inductive PdIndex where
  | rangeIdx (start step : Int) (len : Nat)
  | int64Idx (labels : List Int)
  | objIdx (labels : List Str)

structure PdDataFrame where
  cols : List (Str × Col)
  index : PdIndex

/-! ## The delimited codec of csv2df.py -/

/-- Model of csv2df.py lines 51-58: delimiter resolution (tab when the
path contains '.tsv', else comma, unless the caller passed `sep`) and the
'.csv' append when the delimiter is comma and '.csv' does not occur in the
path. -/
def resolveSepPath (sepOpt : Option Char) (filepath : Str) : Char × Str :=
  let sep := match sepOpt with
    | some c => c
    | none => if containsSub filepath tsvExt then '\t' else ','
  let filepath :=
    if sep = ',' ∧ containsSub filepath csvExt = false then filepath ++ csvExt
    else filepath
  (sep, filepath)

/-- Model of csv2df.py lines 60-67: the index is written unless its
runtime type is one of the numeric index types. -/
def indexIncluded (indexOpt : Option Bool) (idx : PdIndex) : Bool :=
  match indexOpt with
  | some b => b
  | none =>
    match idx with
    | .rangeIdx _ _ _ => false
    | .int64Idx _ => false
    | .objIdx _ => true

/-- Fuel-driven model of `pandas.unique`: first occurrence of each
element, in order. -/
def uniqueListFuel : Nat → List TypeTag → List TypeTag
  | 0, l => l
  | _, [] => []
  | fuel + 1, t :: rest =>
    t :: uniqueListFuel fuel (rest.filter (fun x => x ≠ t))

def uniqueList (l : List TypeTag) : List TypeTag := uniqueListFuel l.length l

/-- Model of csv2df.py lines 69-75: a column is JSONified when the
non-missing cells (`series.dropna()`) have exactly one runtime type and
that type is list or dict. -/
def shouldJsonify (col : Col) : Bool :=
  let types := uniqueList ((col.filterMap id).map typeTag)
  types.length == 1 &&
    (types.headD .tInt == .tList || types.headD .tInt == .tDict)

/-- Model of `series.map(json.dumps)` on one cell (csv2df.py line 84);
pandas `Series.map` applies the function to missing cells too, so a
missing cell becomes the text `json.dumps(nan) = 'NaN'`. -/
def jsonifyCell : Cell → Cell
  | none => some (.vstr ['N', 'a', 'N'])
  | some v => some (.vstr (jsonDumps v))

def jsonifyCol (col : Col) : Col := col.map jsonifyCell

/-- String form of one cell as the delimited writer renders it: missing
becomes the empty field, scalars via `str`.  (Structured cells are
JSON-serialised by `dump_df` before reaching the writer; a structured cell
reaching the writer directly is rendered here via its JSON text, and no
claim depends on that case.) -/
def cellToField : Cell → Str
  | none => []
  | some (.vint n) => intRepr n
  | some (.vbool b) => if b then trueField else falseField
  | some (.vstr s) => s
  | some v => jsonDumps v

def nrows (cols : List (Str × Col)) : Nat :=
  match cols with
  | [] => 0
  | (_, c) :: _ => c.length

def rowFields (cols : List (Str × Col)) (i : Nat) : List Str :=
  cols.map (fun nc => cellToField (nc.2.getD i none))

def PdIndex.label : PdIndex → Nat → Str
  | .rangeIdx start step _, i => intRepr (start + step * i)
  | .int64Idx labels, i => intRepr (labels.getD i 0)
  | .objIdx labels, i => labels.getD i []

/-- Model of `DataFrame.to_csv` (external engine, spec section 6): a
header line followed by one line per row; an included index is written as
a leading unnamed column. -/
def to_csv (sep : Char) (includeIndex : Bool) (cols : List (Str × Col))
    (idx : PdIndex) : Str :=
  joinLines
    (csvLine sep ((if includeIndex then [([] : Str)] else []) ++
        cols.map (fun nc => nc.1)) ::
      (List.range (nrows cols)).map (fun i =>
        csvLine sep ((if includeIndex then [idx.label i] else []) ++
          rowFields cols i)))

structure DumpResult where
  path : Str
  contents : Str

/-- Model of `csv2df.dump_df` (lines 34-91): delimiter and suffix
resolution, index-inclusion inference, the per-column JSONify pass applied
to a copy, delegation to the delimited writer, and the final path being
returned. -/
def dump_df (df : PdDataFrame) (filepath : Str) (indexOpt : Option Bool)
    (sepOpt : Option Char) : DumpResult :=
  let sp := resolveSepPath sepOpt filepath
  let included := indexIncluded indexOpt df.index
  let outCols := df.cols.map (fun nc =>
    (nc.1, if shouldJsonify nc.2 then jsonifyCol nc.2 else nc.2))
  { path := sp.2, contents := to_csv sp.1 included outCols df.index }

/-- The per-column JSONify pass of dump_df, as a standalone map. -/
def outColsOf (cols : List (Str × Col)) : List (Str × Col) :=
  cols.map (fun nc =>
    (nc.1, if shouldJsonify nc.2 then jsonifyCol nc.2 else nc.2))

/-! ## Aliasing embedding of the dump_df mutation (csv2df.py lines 77-84)

The local name `df` initially aliases the caller's object; the statement
`df = df.copy()` re-binds it to an owned copy before any column assignment
`df[column_name] = ...`, and an assignment mutates whatever object the
local name currently refers to. -/

structure AliasState where
  callerObj : List (Str × Col)
  localIsAlias : Bool
  localObj : List (Str × Col)

/-- One Python statement `df[name] = newCol`: mutates the object the local
name refers to, which is the caller's object exactly when it is still
aliased. -/
def assignColumn (st : AliasState) (name : Str) (newCol : Col) : AliasState :=
  let updated := st.localObj.map
    (fun nc => if nc.1 = name then (nc.1, newCol) else nc)
  { callerObj := if st.localIsAlias then updated else st.callerObj,
    localIsAlias := st.localIsAlias,
    localObj := updated }

def lookupCol (cols : List (Str × Col)) (name : Str) : Col :=
  ((cols.find? (fun nc => nc.1 = name)).map (fun nc => nc.2)).getD []

/-- The mutation structure of `dump_df`: compute `columns_to_jsonify`,
copy the frame only when that list is non-empty, then assign each
JSONified column on the local name. -/
def dump_df_mutation (cols : List (Str × Col)) : AliasState :=
  let columns_to_jsonify :=
    (cols.filter (fun nc => shouldJsonify nc.2)).map (fun nc => nc.1)
  let st0 : AliasState :=
    { callerObj := cols, localIsAlias := true, localObj := cols }
  let st1 := if columns_to_jsonify.isEmpty then st0
    else { st0 with localIsAlias := false }
  columns_to_jsonify.foldl
    (fun st name => assignColumn st name (jsonifyCol (lookupCol st.localObj name)))
    st1

/-! ## The delimited decoder of csv2df.py -/

/-- Model of `read_csv` lines 110-117: suffix-fallback resolution of the
source path; on failure the error names the path with the substitutions
undone. -/
def read_csv_resolve (isfile : Str → Bool) (filepath : Str) :
    Except Str Str :=
  let fp1 := if isfile filepath then filepath else filepath ++ csvExt
  let fp2 := if isfile fp1 then fp1 else pyReplace fp1 csvExt tsvExt
  if isfile fp2 then .ok fp2
  else .error (pyReplace fp2 tsvExt [])

/-- Model of filling one missing cell with the two-character JSON
empty-string literal (`fillna('""')`, csv2df.py line 147). -/
def fillCell : Option Str → Str
  | none => ['"', '"']
  | some s => s

/-- Model of `.replace('', np.nan)` on a decoded cell (csv2df.py line
147): a decoded empty string becomes missing. -/
def replaceEmptyCell : Option Value → Cell
  | some (.vstr []) => none
  | some v => some v
  | none => none

/-- Model of `_series_as_JSON` (csv2df.py lines 144-151): fill missing
cells with '""', decode every cell with the JSON parser — any single
failure aborts the whole column (`except ValueError: return None`) — and
convert decoded empty strings back to missing (`.replace('', np.nan)`). -/
def series_as_JSON (parse : Str → Option Value) (col : List (Option Str)) :
    Option (List Cell) :=
  let parsed := col.map (fun c => parse (fillCell c))
  if parsed.all Option.isSome then some (parsed.map replaceEmptyCell)
  else none

/-- Model of read_csv lines 122-130 for one generic (object) column: a
successful JSON pass replaces the column, a failed one leaves the original
values untouched and raises nothing. -/
def processObjectColumn (parse : Str → Option Value)
    (cells : List (Option Str)) : Col :=
  match series_as_JSON parse cells with
  | some newCol => newCol
  | none => cells.map (fun c => c.map Value.vstr)

/-- Missing-value markers recognised by the external reader. -/
def readColField (f : Str) : Option Str :=
  if isNAField f then none else some f

def boolFieldVal (f : Str) : Bool :=
  f = trueField || f = ['T', 'R', 'U', 'E']

/-- Column type inference of the external reader (spec section 6: numeric,
boolean, text/generic) followed, for generic columns, by the JSON pass of
csv2df.py. -/
def inferColumn (parse : Str → Option Value) (fields : List Str) : Col :=
  if (fields.map readColField).filterMap id ≠ [] ∧
      ((fields.map readColField).filterMap id).all isIntField then
    (fields.map readColField).map
      (fun c => c.map (fun f => Value.vint (parseIntField f)))
  else if (fields.map readColField).filterMap id ≠ [] ∧
      ((fields.map readColField).filterMap id).all isBoolField then
    (fields.map readColField).map
      (fun c => c.map (fun f => Value.vbool (boolFieldVal f)))
  else
    processObjectColumn parse (fields.map readColField)

/-- Per-column behaviour of read_csv: a column named in the caller's
explicit dtype map is excluded from the JSON pass (and delivered as text
by the engine); any other column is type-inferred, and generic columns go
through the JSON pass. -/
def processColumn (parse : Str → Option Value) (dtypeKeys : List Str)
    (name : Str) (fields : List Str) : Col :=
  if name ∈ dtypeKeys then
    (fields.map readColField).map (fun c => c.map Value.vstr)
  else inferColumn parse fields

/-- Record splitting of the external delimited reader: the file is split
at newlines and a trailing empty record (from the final newline) is
dropped. -/
def fileRecords (contents : Str) : List Str :=
  if (splitOnNL contents).getLast? = some [] then (splitOnNL contents).dropLast
  else splitOnNL contents

/-- Typed-table construction from the records of one delimited file: the
first record carries the column names, each further record one row; each
column is then typed as in read_csv. -/
def parseContents (parse : Str → Option Value) (dtypeKeys : List Str)
    (sep : Char) (contents : Str) : Option (List (Str × Col)) :=
  match fileRecords contents with
  | [] => none
  | header :: rowLines =>
    some ((List.range (splitFields sep header).length).map (fun j =>
      ((splitFields sep header).getD j [],
       processColumn parse dtypeKeys ((splitFields sep header).getD j [])
         ((rowLines.map (splitFields sep)).map (fun row => row.getD j [])))))

/-- Model of `csv2df.read_csv` (lines 95-141) over a filesystem mapping
paths to contents: resolve the path, split the file into records and
fields, and build the typed columns. -/
def read_csv (parse : Str → Option Value) (fs : Str → Option Str)
    (filepath : Str) (sep : Char) (dtypeKeys : List Str) :
    Except Str (List (Str × Col)) :=
  match read_csv_resolve (fun p => (fs p).isSome) filepath with
  | .error e => .error e
  | .ok path =>
    match fs path with
    | none => .error path
    | some contents =>
      match parseContents parse dtypeKeys sep contents with
      | none => .error path
      | some cols => .ok cols

/-! ## The workspace layer of project.py -/

/-- Model of `Project._file_in_subdir` (project.py lines 124-134): join
the components; when `check_exists` is set and the result is neither an
existing file nor an existing directory, raise FileNotFoundError carrying
that joined path. -/
def file_in_subdir (isfile isdir : Str → Bool) (dir subdir filename : Str)
    (check_exists : Bool) : Except Str Str :=
  let filepath := pyJoin (pyJoin dir subdir) filename
  if check_exists = true ∧ isfile filepath = false ∧ isdir filepath = false
  then .error filepath
  else .ok filepath

/-- Model of `Project.dump_df` (project.py lines 209-212): resolve the
path without existence checking, invoke the codec, and return the
*pre-codec* path (the codec's return value is discarded). -/
def project_dump_df (df : PdDataFrame) (dir subdir filename : Str)
    (indexOpt : Option Bool) (sepOpt : Option Char) : Str × DumpResult :=
  let filepath := pyJoin (pyJoin dir subdir) filename
  let result := dump_df df filepath indexOpt sepOpt
  (filepath, result)

/-- Layout of the engine's 'split'-oriented JSON document: ordered column
names, ordered row labels, and the row-major data matrix.  Modelled from
the spec (section 6, external tabular engine). -/
structure SplitDoc where
  columns : List Str
  index : List Str
  data : List (List Cell)

/-- Modelled from the spec (section 6): `DataFrame.to_json(orient='split')`
of the external engine. -/
def to_json_split (cols : List (Str × Col)) (indexLabels : List Str) :
    SplitDoc :=
  { columns := cols.map (fun nc => nc.1),
    index := indexLabels,
    data := (List.range (nrows cols)).map
      (fun i => cols.map (fun nc => nc.2.getD i none)) }

/-- Modelled from the spec (section 6): `pandas.read_json(orient='split')`
of the external engine. -/
def read_json_split (doc : SplitDoc) : List (Str × Col) :=
  (List.range doc.columns.length).map (fun j =>
    (doc.columns.getD j [], doc.data.map (fun row => row.getD j none)))

def jsonSuffix : Str := ['j', 's', 'o', 'n']
def dotJson : Str := ['.', 'j', 's', 'o', 'n']

/-- Model of `Project.dump_df_as_json` (project.py lines 166-189): append
'.json' unless the name already ends in 'json', resolve under the subdir
without an existence check, serialize with the 'split' orient, return the
path. -/
def dump_df_as_json (cols : List (Str × Col)) (indexLabels : List Str)
    (dir subdir filename : Str) : Str × SplitDoc :=
  let fname := if jsonSuffix.isSuffixOf filename then filename
    else filename ++ dotJson
  (pyJoin (pyJoin dir subdir) fname, to_json_split cols indexLabels)

/-- Model of `Project.load_json_df` (project.py lines 191-207): resolve
under the subdir; when the literal path is absent but the path with
'.json' appended exists, use the latter; read with the 'split' orient.
The filesystem maps paths to written documents. -/
def load_json_df (fsj : Str → Option SplitDoc) (dir subdir filename : Str) :
    Except Str (List (Str × Col)) :=
  let filepath := pyJoin (pyJoin dir subdir) filename
  let filepath :=
    if (fsj filepath).isNone ∧ (fsj (filepath ++ dotJson)).isSome
    then filepath ++ dotJson else filepath
  match fsj filepath with
  | some doc => .ok (read_json_split doc)
  | none => .error filepath

/-! ## Newline-freedom of values and dumped JSON -/

mutual
def valNoNL : Value → Bool
  | .vint _ => true
  | .vbool _ => true
  | .vstr s => ! decide ('\n' ∈ s)
  | .vlist xs => listNoNL xs
  | .vdict kvs => dictNoNL kvs

def listNoNL : List Value → Bool
  | [] => true
  | v :: rest => valNoNL v && listNoNL rest

def dictNoNL : List (Str × Value) → Bool
  | [] => true
  | (k, v) :: rest => (! decide ('\n' ∈ k)) && valNoNL v && dictNoNL rest
end

theorem natRepr_no_nl (n : Nat) : '\n' ∉ natRepr n := by
  intro hm
  have := natRepr_all_digit n '\n' hm
  simp [Char.isDigit] at this

theorem intRepr_no_nl (n : Int) : '\n' ∉ intRepr n := by
  cases n with
  | ofNat m => exact natRepr_no_nl m
  | negSucc m =>
    simp only [intRepr, List.mem_cons]
    rintro (h | h)
    · simp at h
    · exact natRepr_no_nl (m + 1) h

theorem escJSON_no_nl (s : Str) (h : ¬ '\n' ∈ s) : '\n' ∉ escJSON s := by
  induction s with
  | nil => simp [escJSON]
  | cons c rest ih =>
    simp only [List.mem_cons, not_or] at h
    have hc : ¬ ('\n' : Char) = c := h.1
    have ihr := ih h.2
    intro hm
    simp only [escJSON, escJSONChar, List.mem_append] at hm
    rcases hm with hm | hm
    · split at hm <;> simp only [List.mem_cons, List.mem_singleton,
        List.not_mem_nil] at hm <;> tauto
    · exact ihr hm

mutual
theorem valNoNL_dumps (v : Value) (h : valNoNL v = true) :
    '\n' ∉ jsonDumps v := by
  cases v with
  | vint n => exact intRepr_no_nl n
  | vbool b => cases b <;> simp [jsonDumps, trueLit, falseLit]
  | vstr s =>
    have hs : ¬ '\n' ∈ s := by
      simp only [valNoNL, Bool.not_eq_true', decide_eq_false_iff_not] at h
      exact h
    have hesc := escJSON_no_nl s hs
    intro hm
    simp [jsonDumps, List.mem_cons, List.mem_append, hesc] at hm
  | vlist xs =>
    have hrec := listNoNL_dumps xs h
    intro hm
    simp [jsonDumps, List.mem_cons, List.mem_append, hrec] at hm
  | vdict kvs =>
    have hrec := dictNoNL_dumps kvs h
    intro hm
    simp [jsonDumps, List.mem_cons, List.mem_append, hrec] at hm

theorem listNoNL_dumps (xs : List Value) (h : listNoNL xs = true) :
    '\n' ∉ jsonDumpsList xs := by
  cases xs with
  | nil => simp [jsonDumpsList]
  | cons v rest =>
    have hv : valNoNL v = true := by
      simp only [listNoNL, Bool.and_eq_true] at h
      exact h.1
    have hr : listNoNL rest = true := by
      simp only [listNoNL, Bool.and_eq_true] at h
      exact h.2
    have hvd := valNoNL_dumps v hv
    cases rest with
    | nil =>
      simp only [jsonDumpsList]
      exact hvd
    | cons w rest2 =>
      have hrd := listNoNL_dumps (w :: rest2) hr
      intro hm
      simp [jsonDumpsList, List.mem_cons, List.mem_append, hvd, hrd] at hm

theorem dictNoNL_dumps (kvs : List (Str × Value)) (h : dictNoNL kvs = true) :
    '\n' ∉ jsonDumpsDict kvs := by
  cases kvs with
  | nil => simp [jsonDumpsDict]
  | cons kv rest =>
    obtain ⟨k, v⟩ := kv
    have hk : ¬ '\n' ∈ k := by
      simp only [dictNoNL, Bool.and_eq_true, Bool.not_eq_true',
        decide_eq_false_iff_not] at h
      exact h.1.1
    have hv : valNoNL v = true := by
      simp only [dictNoNL, Bool.and_eq_true] at h
      exact h.1.2
    have hr : dictNoNL rest = true := by
      simp only [dictNoNL, Bool.and_eq_true] at h
      exact h.2
    have hkd := escJSON_no_nl k hk
    have hvd := valNoNL_dumps v hv
    cases rest with
    | nil =>
      intro hm
      simp [jsonDumpsDict, List.mem_cons, List.mem_append, hkd, hvd] at hm
    | cons kv2 rest2 =>
      have hrd := dictNoNL_dumps (kv2 :: rest2) hr
      intro hm
      simp [jsonDumpsDict, List.mem_cons, List.mem_append, hkd, hvd, hrd] at hm
end

/-! ## Properties of the Python replace model -/

theorem pyReplaceFuel_nil (fuel : Nat) (pat rep : Str) :
    pyReplaceFuel fuel [] pat rep = [] := by
  cases fuel <;> rfl

theorem isPrefixOf_iff_take (l₁ l₂ : Str) :
    l₁.isPrefixOf l₂ = true ↔ l₂.take l₁.length = l₁ := by
  induction l₁ generalizing l₂ with
  | nil => simp [List.isPrefixOf]
  | cons a as ih =>
    cases l₂ with
    | nil => simp [List.isPrefixOf]
    | cons b bs =>
      simp only [List.isPrefixOf, Bool.and_eq_true, beq_iff_eq,
        List.length_cons, List.take_succ_cons, List.cons.injEq, ih bs]
      tauto

theorem containsSub_cons (c : Char) (s pat : Str) :
    containsSub (c :: s) pat =
      (pat.isPrefixOf (c :: s) || containsSub s pat) := rfl

theorem containsSub_of_isPrefixOf (s pat : Str) (hpat : pat ≠ [])
    (h : pat.isPrefixOf s = true) : containsSub s pat = true := by
  cases s with
  | nil =>
    cases pat with
    | nil => exact absurd rfl hpat
    | cons a as => simp [List.isPrefixOf] at h
  | cons c rest => simp [containsSub_cons, h]

theorem isPrefixOf_refl (l : Str) : l.isPrefixOf l = true := by
  have h := isPrefixOf_append_self l []
  rw [List.append_nil] at h
  exact h

theorem pat_length_pos (pat : Str) (hpat : pat ≠ []) : 1 ≤ pat.length := by
  cases pat with
  | nil => exact absurd rfl hpat
  | cons a as => simp

theorem not_isPrefixOf_append (pat : Str) (hpat : pat ≠ [])
    (hnb : ∀ k, 0 < k → k < pat.length →
      (pat.drop k).isPrefixOf pat = false)
    (c : Char) (s' : Str) (hc : containsSub (c :: s') pat = false) :
    pat.isPrefixOf (c :: (s' ++ pat)) = false := by
  by_contra hcon
  have hpre : pat.isPrefixOf (c :: (s' ++ pat)) = true := by
    revert hcon
    cases pat.isPrefixOf (c :: (s' ++ pat)) <;> simp
  rw [show c :: (s' ++ pat) = (c :: s') ++ pat from rfl] at hpre
  rw [isPrefixOf_iff_take, List.take_append_eq_append_take] at hpre
  by_cases hle : pat.length ≤ (c :: s').length
  · have hz : pat.length - (c :: s').length = 0 := by omega
    rw [hz] at hpre
    simp only [List.take_zero, List.append_nil] at hpre
    have hpref : pat.isPrefixOf (c :: s') = true := by
      rw [isPrefixOf_iff_take, hpre]
    rw [containsSub_of_isPrefixOf (c :: s') pat hpat hpref] at hc
    simp at hc
  · push_neg at hle
    set k := (c :: s').length with hk
    have hkpos : 0 < k := by simp [hk]
    have hklt : k < pat.length := hle
    have hdrop : pat.drop k = pat.take (pat.length - k) := by
      have hx : ((c :: s').take pat.length) = c :: s' :=
        List.take_of_length_le (by omega)
      rw [hx] at hpre
      conv_lhs => rw [← hpre]
      rw [hk, List.drop_left]
    have htpre : (pat.drop k).isPrefixOf pat = true := by
      rw [isPrefixOf_iff_take, hdrop]
      rw [List.length_take]
      rw [show min (pat.length - k) pat.length = pat.length - k by omega]
    rw [hnb k hkpos hklt] at htpre
    simp at htpre

theorem pyReplaceFuel_append_pat (pat rep : Str) (hpat : pat ≠ [])
    (hnb : ∀ k, 0 < k → k < pat.length →
      (pat.drop k).isPrefixOf pat = false) :
    ∀ (s : Str) (fuel : Nat), s.length + pat.length ≤ fuel →
      containsSub s pat = false →
      pyReplaceFuel fuel (s ++ pat) pat rep = s ++ rep := by
  intro s
  induction s with
  | nil =>
    intro fuel hf _
    have hplen := pat_length_pos pat hpat
    cases fuel with
    | zero => omega
    | succ f =>
      rw [show ([] : Str) ++ pat = pat from rfl]
      cases hp : pat with
      | nil => exact absurd hp hpat
      | cons a as =>
        subst hp
        rw [pyReplaceFuel.eq_def]
        simp [isPrefixOf_refl, List.drop_length, pyReplaceFuel_nil]
  | cons c s' ih =>
    intro fuel hf hc
    have hplen := pat_length_pos pat hpat
    cases fuel with
    | zero =>
      exfalso
      simp only [List.length_cons] at hf
      omega
    | succ f =>
      rw [show (c :: s') ++ pat = c :: (s' ++ pat) from rfl]
      have hnpre := not_isPrefixOf_append pat hpat hnb c s' hc
      have hc' : containsSub s' pat = false := by
        rw [containsSub_cons] at hc
        rcases Bool.or_eq_false_iff.mp hc with ⟨_, h2⟩
        exact h2
      have hih := ih f (by simp only [List.length_cons] at hf; omega) hc'
      rw [pyReplaceFuel.eq_def]
      simp [hnpre, hih]

theorem pyReplace_append_pat (pat rep s : Str) (hpat : pat ≠ [])
    (hnb : ∀ k, 0 < k → k < pat.length →
      (pat.drop k).isPrefixOf pat = false)
    (hs : containsSub s pat = false) :
    pyReplace (s ++ pat) pat rep = s ++ rep := by
  unfold pyReplace
  exact pyReplaceFuel_append_pat pat rep hpat hnb s (s ++ pat).length
    (by simp) hs

theorem csvExt_no_border :
    ∀ k, 0 < k → k < csvExt.length →
      (csvExt.drop k).isPrefixOf csvExt = false := by
  intro k h1 h2
  simp only [csvExt, List.length_cons, List.length_nil] at h2
  interval_cases k <;> decide

theorem tsvExt_no_border :
    ∀ k, 0 < k → k < tsvExt.length →
      (tsvExt.drop k).isPrefixOf tsvExt = false := by
  intro k h1 h2
  simp only [tsvExt, List.length_cons, List.length_nil] at h2
  interval_cases k <;> decide

/-! ## Properties of the unique-types model -/

theorem uniqueListFuel_nil (fuel : Nat) : uniqueListFuel fuel [] = [] := by
  cases fuel <;> rfl

theorem uniqueListFuel_singleton_of_all (t : TypeTag) :
    ∀ (fuel : Nat) (l : List TypeTag), l.length ≤ fuel → l ≠ [] →
      (∀ x ∈ l, x = t) → uniqueListFuel fuel l = [t] := by
  intro fuel
  induction fuel with
  | zero =>
    intro l hlen hne _
    cases l with
    | nil => exact absurd rfl hne
    | cons a as => simp at hlen
  | succ f ih =>
    intro l hlen hne hall
    cases l with
    | nil => exact absurd rfl hne
    | cons a as =>
      have ha : a = t := hall a (by simp)
      have hfilter : as.filter (fun x => x ≠ a) = [] := by
        rw [List.filter_eq_nil_iff]
        intro x hx
        have := hall x (by simp [hx])
        simp [this, ha]
      rw [uniqueListFuel, hfilter, uniqueListFuel_nil, ha]

theorem uniqueList_singleton_of_all (t : TypeTag) (l : List TypeTag)
    (hne : l ≠ []) (hall : ∀ x ∈ l, x = t) : uniqueList l = [t] :=
  uniqueListFuel_singleton_of_all t l.length l (le_refl _) hne hall

theorem mem_uniqueListFuel :
    ∀ (fuel : Nat) (l : List TypeTag), l.length ≤ fuel →
      ∀ x ∈ l, x ∈ uniqueListFuel fuel l := by
  intro fuel
  induction fuel with
  | zero =>
    intro l hlen x hx
    cases l with
    | nil => simp at hx
    | cons a as => simp at hlen
  | succ f ih =>
    intro l hlen x hx
    cases l with
    | nil => simp at hx
    | cons a as =>
      rw [uniqueListFuel]
      rcases List.mem_cons.mp hx with hx | hx
      · simp [hx]
      · by_cases hxa : x = a
        · simp [hxa]
        · have hmem : x ∈ as.filter (fun y => y ≠ a) := by
            rw [List.mem_filter]
            exact ⟨hx, by simp [hxa]⟩
          have hlen2 : (as.filter (fun y => y ≠ a)).length ≤ f := by
            have := List.length_filter_le (fun y => decide (y ≠ a)) as
            simp only [List.length_cons] at hlen
            omega
          exact List.mem_cons_of_mem a (ih _ hlen2 x hmem)

theorem mem_uniqueList (l : List TypeTag) (x : TypeTag) (hx : x ∈ l) :
    x ∈ uniqueList l :=
  mem_uniqueListFuel l.length l (le_refl _) x hx

/-- The JSONify pass applies to a column iff its non-missing cells are
nonempty and uniformly lists or uniformly dicts. -/
theorem shouldJsonify_iff_structured (col : Col) :
    shouldJsonify col = true ↔
      (col.filterMap id ≠ [] ∧
        ((∀ v ∈ col.filterMap id, typeTag v = .tList) ∨
         (∀ v ∈ col.filterMap id, typeTag v = .tDict))) := by
  unfold shouldJsonify
  constructor
  · intro h
    simp only [Bool.and_eq_true, beq_iff_eq, Bool.or_eq_true] at h
    obtain ⟨hlen, hhead⟩ := h
    set ts := (col.filterMap id).map typeTag with hts
    cases hu : uniqueList ts with
    | nil => rw [hu] at hlen; simp at hlen
    | cons t rest =>
      cases rest with
      | cons t2 r2 => rw [hu] at hlen; simp at hlen
      | nil =>
        have hall : ∀ x ∈ ts, x = t := by
          intro x hx
          have := mem_uniqueList ts x hx
          rw [hu] at this
          simpa using this
        have hne : col.filterMap id ≠ [] := by
          intro hnil
          rw [hnil] at hts
          simp [hts, uniqueList, uniqueListFuel_nil] at hu
        refine ⟨hne, ?_⟩
        rw [hu] at hhead
        simp only [List.headD_cons] at hhead
        rcases hhead with hh | hh
        · left
          intro v hv
          rw [← hh]
          exact hall (typeTag v) (by rw [hts]; exact List.mem_map_of_mem _ hv)
        · right
          intro v hv
          rw [← hh]
          exact hall (typeTag v) (by rw [hts]; exact List.mem_map_of_mem _ hv)
  · rintro ⟨hne, hall⟩
    have hmapne : (col.filterMap id).map typeTag ≠ [] := by
      simpa using hne
    rcases hall with hall | hall
    · have hu := uniqueList_singleton_of_all .tList
        ((col.filterMap id).map typeTag) hmapne (by
          intro x hx
          obtain ⟨v, hv, hveq⟩ := List.mem_map.mp hx
          rw [← hveq]
          exact hall v hv)
      rw [hu]
      simp
    · have hu := uniqueList_singleton_of_all .tDict
        ((col.filterMap id).map typeTag) hmapne (by
          intro x hx
          obtain ⟨v, hv, hveq⟩ := List.mem_map.mp hx
          rw [← hveq]
          exact hall v hv)
      rw [hu]
      simp

/-- Claim C2 (code bug): `Project._file_in_subdir` performs no fuzzy
search at all.  In a workspace whose data directory holds exactly
`data_file.txt` — so that the fuzzy name `file.tx` has exactly one
candidate, as the repository's own test suite expects to resolve — the
code raises FileNotFoundError on the joined literal path instead of
returning that unique candidate. -/
theorem claim_C2_no_fuzzy_search :
    file_in_subdir (fun p => p == ("/b/data/data_file.txt").toList)
      (fun p => p == ("/b/data").toList)
      ("/b").toList ("data").toList ("file.tx").toList true =
      .error (("/b/data/file.tx").toList) ∧
    containsSub (("data_file.txt").toList) (("file.tx").toList) = true := by
  constructor
  · rfl
  · rfl

/-- Claim C3 (counterexample): for the requested path `data.csv`, when no
candidate exists, the file-not-found error of `read_csv` names `data` —
the result of substituting away every '.csv'/'.tsv' occurrence — not the
original requested path `data.csv`. -/
theorem claim_C3_counterexample :
    read_csv_resolve (fun _ => false) (("data.csv").toList) =
      .error (("data").toList) ∧
    ("data").toList ≠ ("data.csv").toList := by
  constructor
  · rfl
  · simp

/-- Claim C3 (amended): for source paths containing neither '.csv' nor
'.tsv' as a substring, delimited decode tries the path as given, then
with '.csv' appended, then with '.tsv' in place of '.csv', and when all
three are absent it fails with an error naming exactly the original
requested path. -/
theorem claim_C3_fallback_chain (isfile : Str → Bool) (p : Str)
    (hcsv : containsSub p csvExt = false)
    (htsv : containsSub p tsvExt = false) :
    read_csv_resolve isfile p =
      (if isfile p = true then .ok p
       else if isfile (p ++ csvExt) = true then .ok (p ++ csvExt)
       else if isfile (p ++ tsvExt) = true then .ok (p ++ tsvExt)
       else .error p) := by
  unfold read_csv_resolve
  have hr1 := pyReplace_append_pat csvExt tsvExt p (by simp [csvExt])
    csvExt_no_border hcsv
  have hr2 := pyReplace_append_pat tsvExt [] p (by simp [tsvExt])
    tsvExt_no_border htsv
  by_cases h1 : isfile p = true
  · simp [h1]
  · by_cases h2 : isfile (p ++ csvExt) = true
    · simp [h1, h2]
    · by_cases h3 : isfile (p ++ tsvExt) = true
      · simp [h1, h2, hr1, h3]
      · simp [h1, h2, hr1, h3, hr2]

/-- Witness for claim C3's amended theorem at the spec's own example: the
name `report` with an empty filesystem fails naming `report`. -/
theorem claim_C3_fallback_chain_witness :
    read_csv_resolve (fun _ => false) (("report").toList) =
      .error (("report").toList) := by
  rw [claim_C3_fallback_chain (fun _ => false) (("report").toList)
    (by rfl) (by rfl)]
  rfl

/-- Claim C6 (counterexample): for the destination `out.csvx` with no
delimiter override, the delimiter resolves to comma and the path lacks a
'.csv' suffix, yet no '.csv' is appended — the code tests substring
containment, not the suffix. -/
theorem claim_C6_counterexample :
    resolveSepPath none (("out.csvx").toList) =
      (',', ("out.csvx").toList) ∧
    csvExt.isSuffixOf (("out.csvx").toList) = false := by
  constructor
  · rfl
  · rfl

/-- Full behaviour of the delimiter/suffix resolution: delimiter default,
the containment-based '.csv' append, and path stability off the comma
branch. -/
theorem resolveSepPath_spec (sepOpt : Option Char) (p : Str) :
    (sepOpt = none → (resolveSepPath sepOpt p).1 =
      (if containsSub p tsvExt = true then '\t' else ',')) ∧
    ((resolveSepPath sepOpt p).2 =
      (if (resolveSepPath sepOpt p).1 = ',' ∧ containsSub p csvExt = false
       then p ++ csvExt else p)) ∧
    ((resolveSepPath sepOpt p).1 ≠ ',' → (resolveSepPath sepOpt p).2 = p) := by
  have hpath : (resolveSepPath sepOpt p).2 =
      (if (resolveSepPath sepOpt p).1 = ',' ∧ containsSub p csvExt = false
       then p ++ csvExt else p) := by
    cases sepOpt <;> simp [resolveSepPath]
  refine ⟨?_, hpath, ?_⟩
  · intro h
    subst h
    cases ht : containsSub p tsvExt <;> simp [resolveSepPath, ht]
  · intro h
    rw [hpath, if_neg]
    rintro ⟨hc, _⟩
    exact h hc

/-- Claim C6 (amended): with no delimiter override the delimiter is tab
iff the destination contains '.tsv'; '.csv' is appended exactly when the
resolved delimiter is comma and the destination does not *contain*
'.csv' as a substring (not: does not end with it); in every other case —
including every tab-delimited destination — the path is unchanged. -/
theorem claim_C6_delimiter_and_suffix (sepOpt : Option Char) (p : Str) :
    (sepOpt = none → (resolveSepPath sepOpt p).1 =
      (if containsSub p tsvExt = true then '\t' else ',')) ∧
    ((resolveSepPath sepOpt p).2 =
      (if (resolveSepPath sepOpt p).1 = ',' ∧ containsSub p csvExt = false
       then p ++ csvExt else p)) ∧
    ((resolveSepPath sepOpt p).1 ≠ ',' → (resolveSepPath sepOpt p).2 = p) :=
  resolveSepPath_spec sepOpt p

/-- Witness for claim C6's amended theorem: dumping to `out` with no
overrides appends '.csv'. -/
theorem claim_C6_delimiter_and_suffix_witness :
    (resolveSepPath none (("out").toList)).2 = ("out").toList ++ csvExt := by
  have h := (claim_C6_delimiter_and_suffix none (("out").toList)).2.1
  rw [h]
  rfl

/-- Modelled from the spec's words for claim C7: a "trivial monotonically
increasing integer sequence starting at a fixed origin", i.e. the default
0-based sequential row index, carrying no information beyond row
position. -/
def specTrivialIndex : PdIndex → Bool
  | .rangeIdx start step _ => start == 0 && step == 1
  | .int64Idx labels =>
    labels == (List.range labels.length).map (fun i => (i : Int))
  | .objIdx _ => false

/-- Claim C7 (counterexample): the integer index [5, 3] is not a trivial
monotonically-increasing sequence, yet with no explicit index flag the
encoder omits it — the code decides by index type, not by label values. -/
theorem claim_C7_counterexample :
    indexIncluded none (PdIndex.int64Idx [5, 3]) = false ∧
    specTrivialIndex (PdIndex.int64Idx [5, 3]) = false := by
  constructor
  · rfl
  · rfl

/-- Claim C7 (amended): with no explicit index flag, the row index is
omitted exactly when its runtime type is numeric (RangeIndex or
Int64Index), regardless of its label values, and included for object
indexes such as string-labeled rows; an explicit flag always wins. -/
theorem claim_C7_index_by_type (idx : PdIndex) :
    (indexIncluded none idx = false ↔
      ((∃ start step len, idx = .rangeIdx start step len) ∨
       (∃ labels, idx = .int64Idx labels))) ∧
    (∀ b, indexIncluded (some b) idx = b) := by
  constructor
  · cases idx <;> simp [indexIncluded]
  · intro b
    rfl

/-- Claim C8 (counterexample): dumping a one-column frame under the
logical name `out` writes `/p/results/out.csv`, but `Project.dump_df`
returns `/p/results/out` — the pre-encoding path without the
auto-appended extension, not the final resolved path. -/
theorem claim_C8_counterexample :
    (project_dump_df
      ⟨[(("a").toList, [some (Value.vint 1)])], .rangeIdx 0 1 1⟩
      (("/p").toList) (("results").toList) (("out").toList) none none).2.path =
      ("/p/results/out.csv").toList ∧
    (project_dump_df
      ⟨[(("a").toList, [some (Value.vint 1)])], .rangeIdx 0 1 1⟩
      (("/p").toList) (("results").toList) (("out").toList) none none).1 =
      ("/p/results/out").toList ∧
    ("/p/results/out").toList ≠ ("/p/results/out.csv").toList := by
  refine ⟨rfl, rfl, ?_⟩
  simp

/-- Claim C8 (amended): the Codec's `dump_df` returns the final resolved
path it writes (including any auto-appended extension), while
`Project.dump_df` returns the pre-codec join of dir, subdir and filename;
whenever an extension is auto-appended the two differ. -/
theorem claim_C8_returned_paths (df : PdDataFrame) (dir subdir filename : Str)
    (indexOpt : Option Bool) (sepOpt : Option Char) :
    ((dump_df df (pyJoin (pyJoin dir subdir) filename) indexOpt sepOpt).path =
      (resolveSepPath sepOpt (pyJoin (pyJoin dir subdir) filename)).2) ∧
    ((project_dump_df df dir subdir filename indexOpt sepOpt).1 =
      pyJoin (pyJoin dir subdir) filename) ∧
    (sepOpt = none →
     containsSub (pyJoin (pyJoin dir subdir) filename) csvExt = false →
     containsSub (pyJoin (pyJoin dir subdir) filename) tsvExt = false →
      (project_dump_df df dir subdir filename indexOpt sepOpt).2.path =
        pyJoin (pyJoin dir subdir) filename ++ csvExt ∧
      (project_dump_df df dir subdir filename indexOpt sepOpt).1 ≠
        (project_dump_df df dir subdir filename indexOpt sepOpt).2.path) := by
  refine ⟨rfl, rfl, ?_⟩
  intro hsep hcsv htsv
  subst hsep
  have hpath : (project_dump_df df dir subdir filename indexOpt none).2.path =
      pyJoin (pyJoin dir subdir) filename ++ csvExt := by
    show (resolveSepPath none (pyJoin (pyJoin dir subdir) filename)).2 = _
    have h := (resolveSepPath_spec none
      (pyJoin (pyJoin dir subdir) filename)).2.1
    rw [h, if_pos]
    constructor
    · show (resolveSepPath none (pyJoin (pyJoin dir subdir) filename)).1 = ','
      simp [resolveSepPath, htsv]
    · exact hcsv
  refine ⟨hpath, ?_⟩
  rw [hpath]
  intro hcontra
  have hlen := congrArg List.length hcontra
  simp only [List.length_append] at hlen
  have : csvExt.length = 4 := rfl
  show False
  have h0 : (project_dump_df df dir subdir filename indexOpt none).1 =
      pyJoin (pyJoin dir subdir) filename := rfl
  rw [h0] at hlen
  omega

/-- Witness for claim C8's amended theorem at a concrete workspace dump. -/
theorem claim_C8_returned_paths_witness :
    (project_dump_df
      ⟨[(("a").toList, [some (Value.vint 1)])], .rangeIdx 0 1 1⟩
      (("/p").toList) (("results").toList) (("out").toList) none none).2.path =
      pyJoin (pyJoin (("/p").toList) (("results").toList)) (("out").toList)
        ++ csvExt :=
  ((claim_C8_returned_paths
      ⟨[(("a").toList, [some (Value.vint 1)])], .rangeIdx 0 1 1⟩
      (("/p").toList) (("results").toList) (("out").toList) none none).2.2
    rfl (by rfl) (by rfl)).1

theorem assign_foldl_caller (names : List Str) :
    ∀ st : AliasState, st.localIsAlias = false →
      ((names.foldl (fun st name =>
          assignColumn st name (jsonifyCol (lookupCol st.localObj name)))
          st).callerObj = st.callerObj ∧
       (names.foldl (fun st name =>
          assignColumn st name (jsonifyCol (lookupCol st.localObj name)))
          st).localIsAlias = false) := by
  induction names with
  | nil => exact fun st h => ⟨rfl, h⟩
  | cons n rest ih =>
    intro st h
    simp only [List.foldl_cons]
    have hstep1 : (assignColumn st n
        (jsonifyCol (lookupCol st.localObj n))).callerObj = st.callerObj := by
      unfold assignColumn
      simp [h]
    have hstep2 : (assignColumn st n
        (jsonifyCol (lookupCol st.localObj n))).localIsAlias = false := by
      unfold assignColumn
      simp [h]
    have hrec := ih _ hstep2
    exact ⟨by rw [hrec.1, hstep1], hrec.2⟩

/-- Claim C9: the JSONify pass of `dump_df` never mutates the caller's
table — every column assignment happens only after `df.copy()` has
re-bound the local name to an owned (shadow) copy, so the caller-visible
object is unchanged by the call. -/
theorem claim_C9_no_caller_mutation (cols : List (Str × Col)) :
    (dump_df_mutation cols).callerObj = cols ∧
    ((cols.filter (fun nc => shouldJsonify nc.2)).map (fun nc => nc.1) ≠ [] →
      (dump_df_mutation cols).localIsAlias = false) := by
  unfold dump_df_mutation
  cases hn : (cols.filter (fun nc => shouldJsonify nc.2)).map
      (fun nc => nc.1) with
  | nil =>
    simp only [hn]
    exact ⟨rfl, fun h => absurd rfl h⟩
  | cons n rest =>
    simp only [hn, List.isEmpty_cons, if_false]
    have hfold := assign_foldl_caller (n :: rest)
      { callerObj := cols, localIsAlias := false, localObj := cols } rfl
    exact ⟨hfold.1, fun _ => hfold.2⟩

theorem replaceEmptyCell_ne (o : Option Value) :
    replaceEmptyCell o ≠ some (Value.vstr []) := by
  match o with
  | none => simp [replaceEmptyCell]
  | some (Value.vint n) => simp [replaceEmptyCell]
  | some (Value.vbool b) => simp [replaceEmptyCell]
  | some (Value.vstr []) => simp [replaceEmptyCell]
  | some (Value.vstr (c :: s)) => simp [replaceEmptyCell]
  | some (Value.vlist xs) => simp [replaceEmptyCell]
  | some (Value.vdict kvs) => simp [replaceEmptyCell]

/-- Claim C4: for a column the delimited reader typed as generic (object)
and whose name the caller did not put in the dtype map, the JSON pass is
all-or-nothing: one cell failing to parse as JSON makes `_series_as_JSON`
return None, the column keeps its original scalar (string) values, and no
error is raised — partial success is never applied. -/
theorem claim_C4_json_pass_all_or_nothing (parse : Str → Option Value)
    (dtypeKeys : List Str) (name : Str) (fields : List Str)
    (hname : name ∉ dtypeKeys)
    (hint : ¬ (((fields.map readColField).filterMap id) ≠ [] ∧
      ((fields.map readColField).filterMap id).all isIntField = true))
    (hbool : ¬ (((fields.map readColField).filterMap id) ≠ [] ∧
      ((fields.map readColField).filterMap id).all isBoolField = true))
    (hfail : ∃ c ∈ fields.map readColField, parse (fillCell c) = none) :
    series_as_JSON parse (fields.map readColField) = none ∧
    processColumn parse dtypeKeys name fields =
      (fields.map readColField).map (fun c => c.map Value.vstr) := by
  have hs : series_as_JSON parse (fields.map readColField) = none := by
    unfold series_as_JSON
    rw [if_neg]
    intro hall
    obtain ⟨c, hc, hpc⟩ := hfail
    have hmem : parse (fillCell c) ∈
        (fields.map readColField).map (fun c => parse (fillCell c)) :=
      List.mem_map_of_mem _ hc
    have := List.all_eq_true.mp hall (parse (fillCell c)) hmem
    rw [hpc] at this
    simp at this
  refine ⟨hs, ?_⟩
  unfold processColumn
  rw [if_neg hname]
  unfold inferColumn
  rw [if_neg hint, if_neg hbool]
  unfold processObjectColumn
  rw [hs]

/-- Witness for claim C4: a parser that rejects everything leaves the
single-cell column `a` as its original string. -/
theorem claim_C4_json_pass_all_or_nothing_witness :
    series_as_JSON (fun _ => none) ([['a']].map readColField) = none ∧
    processColumn (fun _ => none) [] ['c'] [['a']] =
      ([['a']].map readColField).map (fun c => c.map Value.vstr) :=
  claim_C4_json_pass_all_or_nothing (fun _ => none) [] ['c'] [['a']]
    (by simp)
    (by decide)
    (by decide)
    ⟨some ['a'], by decide, rfl⟩

/-- Claim C10: in a column whose JSON pass succeeds, every cell decoding
to the empty string becomes missing, so the result never contains an
empty-string value; and the whole pass depends only on the filled cell
texts, so a cell holding the two-character JSON empty-string literal is
indistinguishable in the result from a cell that was missing. -/
theorem claim_C10_empty_string_becomes_missing (parse : Str → Option Value)
    (col col' : List (Option Str)) (out : List Cell)
    (hout : series_as_JSON parse col = some out)
    (hmap : col.map fillCell = col'.map fillCell) :
    (∀ c ∈ out, c ≠ some (Value.vstr [])) ∧
    series_as_JSON parse col = series_as_JSON parse col' := by
  constructor
  · intro c hc
    unfold series_as_JSON at hout
    by_cases hall : ((col.map (fun c => parse (fillCell c))).all
        Option.isSome) = true
    · rw [if_pos hall] at hout
      injection hout with hout
      rw [← hout] at hc
      obtain ⟨o, _, hoeq⟩ := List.mem_map.mp hc
      rw [← hoeq]
      exact replaceEmptyCell_ne o
    · rw [if_neg hall] at hout
      exact absurd hout (by simp)
  · have heq : col.map (fun c => parse (fillCell c)) =
        col'.map (fun c => parse (fillCell c)) := by
      calc col.map (fun c => parse (fillCell c))
          = (col.map fillCell).map parse := by
            rw [List.map_map]
            rfl
        _ = (col'.map fillCell).map parse := by rw [hmap]
        _ = col'.map (fun c => parse (fillCell c)) := by
            rw [List.map_map]
            rfl
    unfold series_as_JSON
    rw [heq]

/-- Witness for claim C10: with a parser accepting only the empty-string
literal, a missing cell and a cell holding that literal produce the same
all-missing output. -/
theorem claim_C10_empty_string_becomes_missing_witness :
    (∀ c ∈ ([none] : List Cell), c ≠ some (Value.vstr [])) ∧
    series_as_JSON
      (fun s => if s = ['"', '"'] then some (Value.vstr []) else none)
      [none] =
    series_as_JSON
      (fun s => if s = ['"', '"'] then some (Value.vstr []) else none)
      [some ['"', '"']] :=
  claim_C10_empty_string_becomes_missing
    (fun s => if s = ['"', '"'] then some (Value.vstr []) else none)
    [none] [some ['"', '"']] [none] rfl rfl

/-- Witness for claim C9 at a table with one structured column (so the
copy actually happens). -/
theorem claim_C9_no_caller_mutation_witness :
    (dump_df_mutation [(['a'], [some (Value.vlist [])])]).callerObj =
      [(['a'], [some (Value.vlist [])])] ∧
    (dump_df_mutation [(['a'], [some (Value.vlist [])])]).localIsAlias =
      false :=
  ⟨(claim_C9_no_caller_mutation [(['a'], [some (Value.vlist [])])]).1,
   (claim_C9_no_caller_mutation [(['a'], [some (Value.vlist [])])]).2
     (by decide)⟩

/-! ## Round-trip machinery: list and field lemmas -/

theorem range_map_getD {α : Type} (C : List α) (d : α) :
    (List.range C.length).map (fun i => C.getD i d) = C := by
  apply List.ext_getElem
  · simp
  · intro i h1 h2
    simp only [List.getElem_map, List.getElem_range]
    rw [List.getD_eq_getElem C d h2]

theorem range_map_field (C : Col) (n : Nat) (h : C.length = n) :
    (List.range n).map (fun i => cellToField (C.getD i none)) =
      C.map cellToField := by
  subst h
  rw [show (fun i => cellToField (C.getD i none)) =
      cellToField ∘ (fun i => C.getD i none) from rfl]
  rw [← List.map_map, range_map_getD]

theorem filterMap_id_map_optionMap {α β : Type} (l : List (Option α))
    (f : α → β) :
    ((l.map (Option.map f)).filterMap id) = (l.filterMap id).map f := by
  induction l with
  | nil => rfl
  | cons c rest ih => cases c <;> simp [ih]

theorem mem_vals_of_mem {col : Col} {v : Value} (h : some v ∈ col) :
    v ∈ col.filterMap id :=
  List.mem_filterMap.mpr ⟨some v, h, rfl⟩

theorem digit_ne_char (c x : Char) (h : c.isDigit = true)
    (hx : x.isDigit = false) : c ≠ x := by
  intro heq
  subst heq
  rw [h] at hx
  cases hx

theorem isNAField_head_ne (c : Char) (rest : Str) (h1 : c ≠ 'N')
    (h2 : c ≠ 'n') : isNAField (c :: rest) = false := by
  simp only [isNAField, decide_eq_false_iff_not, naMarkers, List.mem_cons,
    List.not_mem_nil]
  intro hmem
  rcases hmem with h | h | h | h | h | h | h | h | h | h <;> simp_all

theorem isIntField_head (c : Char) (rest : Str) (hc : c.isDigit = false)
    (hneg : c ≠ '-') : isIntField (c :: rest) = false := by
  rw [isIntField.eq_def]
  simp [hneg, hc]

theorem isBoolField_head (c : Char) (rest : Str) (h1 : c ≠ 'T')
    (h2 : c ≠ 'F') : isBoolField (c :: rest) = false := by
  simp only [isBoolField, trueField, falseField, decide_eq_false_iff_not]
  intro hmem
  rcases hmem with h | h | h | h <;> simp_all

theorem isNAField_intRepr (n : Int) : isNAField (intRepr n) = false := by
  cases n with
  | ofNat m =>
    cases hh : natRepr m with
    | nil => exact absurd hh (natRepr_ne_nil m)
    | cons c cs =>
      have hcd : c.isDigit = true := by
        simpa using natRepr_all_digit m c (by simp [hh])
      rw [show intRepr (Int.ofNat m) = c :: cs by simp [intRepr, hh]]
      exact isNAField_head_ne c cs (digit_ne_char c 'N' hcd (by decide))
        (digit_ne_char c 'n' hcd (by decide))
  | negSucc m =>
    rw [show intRepr (Int.negSucc m) = '-' :: natRepr (m + 1) from rfl]
    exact isNAField_head_ne '-' _ (by decide) (by decide)

theorem isBoolField_intRepr (n : Int) : isBoolField (intRepr n) = false := by
  cases n with
  | ofNat m =>
    cases hh : natRepr m with
    | nil => exact absurd hh (natRepr_ne_nil m)
    | cons c cs =>
      have hcd : c.isDigit = true := by
        simpa using natRepr_all_digit m c (by simp [hh])
      rw [show intRepr (Int.ofNat m) = c :: cs by simp [intRepr, hh]]
      exact isBoolField_head c cs (digit_ne_char c 'T' hcd (by decide))
        (digit_ne_char c 'F' hcd (by decide))
  | negSucc m =>
    rw [show intRepr (Int.negSucc m) = '-' :: natRepr (m + 1) from rfl]
    exact isBoolField_head '-' _ (by decide) (by decide)

theorem structured_field_facts (v : Value)
    (h : typeTag v = .tList ∨ typeTag v = .tDict) :
    isNAField (jsonDumps v) = false ∧ isIntField (jsonDumps v) = false ∧
      isBoolField (jsonDumps v) = false := by
  cases v with
  | vint n => simp [typeTag] at h
  | vbool b => simp [typeTag] at h
  | vstr s => simp [typeTag] at h
  | vlist xs =>
    rw [show jsonDumps (.vlist xs) = '[' :: (jsonDumpsList xs ++ [']']) by
      simp [jsonDumps]]
    exact ⟨isNAField_head_ne '[' _ (by decide) (by decide),
      isIntField_head '[' _ (by decide) (by decide),
      isBoolField_head '[' _ (by decide) (by decide)⟩
  | vdict kvs =>
    rw [show jsonDumps (.vdict kvs) = '{' :: (jsonDumpsDict kvs ++ ['}']) by
      simp [jsonDumps]]
    exact ⟨isNAField_head_ne '{' _ (by decide) (by decide),
      isIntField_head '{' _ (by decide) (by decide),
      isBoolField_head '{' _ (by decide) (by decide)⟩

/-! ## Round-trip machinery: per-column decode lemmas -/

/-- Conditions under which one column of a table survives the delimited
encode/decode round trip (the amended claim C1).  Scalar columns must be
uniformly typed; string cells must avoid the reader's missing-value
markers and line breaks, and at least one string cell must fall outside
every shape the reader or the JSON pass would re-interpret (JSON text,
integer, boolean, or float shaped); structured columns must be uniformly
list or uniformly dict with newline-free content. -/
def goodColumn (col : Col) : Prop :=
  (∀ c ∈ col, c = none) ∨
  (col.filterMap id ≠ [] ∧
    ∀ v ∈ col.filterMap id, ∃ k, v = Value.vint k) ∨
  (col.filterMap id ≠ [] ∧
    ∀ v ∈ col.filterMap id, ∃ b, v = Value.vbool b) ∨
  (col.filterMap id ≠ [] ∧
    (∀ v ∈ col.filterMap id, ∃ s, v = Value.vstr s ∧
      isNAField s = false ∧ '\n' ∉ s) ∧
    (∃ v ∈ col.filterMap id, ∃ s, v = Value.vstr s ∧ jsonLoads s = none ∧
      isIntField s = false ∧ isBoolField s = false ∧ isFloatField s = false)) ∨
  (col.filterMap id ≠ [] ∧
    ∀ v ∈ col.filterMap id, (∃ xs, v = Value.vlist xs) ∧ valNoNL v = true) ∨
  (col.filterMap id ≠ [] ∧
    ∀ v ∈ col.filterMap id, (∃ kvs, v = Value.vdict kvs) ∧ valNoNL v = true)

theorem shouldJsonify_false_of_tag (col : Col) (t : TypeTag)
    (ht1 : t ≠ TypeTag.tList) (ht2 : t ≠ TypeTag.tDict)
    (hall : ∀ v ∈ col.filterMap id, typeTag v = t) :
    shouldJsonify col = false := by
  by_cases hcon : shouldJsonify col = true
  · exfalso
    obtain ⟨hne, hld⟩ := (shouldJsonify_iff_structured col).mp hcon
    obtain ⟨v0, hv0⟩ := List.exists_mem_of_ne_nil _ hne
    rcases hld with hld | hld
    · exact ht1 ((hall v0 hv0).symm.trans (hld v0 hv0))
    · exact ht2 ((hall v0 hv0).symm.trans (hld v0 hv0))
  · simpa using hcon

theorem shouldJsonify_missing (col : Col) (h : ∀ c ∈ col, c = none) :
    shouldJsonify col = false := by
  have hnil : col.filterMap id = [] := by
    rw [List.filterMap_eq_nil_iff]
    intro c hc
    rw [h c hc]
    rfl
  unfold shouldJsonify
  rw [hnil]
  rfl

theorem decode_missing_col (col : Col) (h : ∀ c ∈ col, c = none) :
    inferColumn jsonLoads (col.map cellToField) = col := by
  have hcells : (col.map cellToField).map readColField =
      col.map (fun _ => (none : Option Str)) := by
    rw [List.map_map]
    apply List.map_congr_left
    intro c hc
    rw [h c hc]
    rfl
  unfold inferColumn
  rw [hcells]
  have hnonNA : (col.map (fun _ => (none : Option Str))).filterMap id = [] := by
    rw [List.filterMap_eq_nil_iff]
    intro c hc
    obtain ⟨x, _, hx⟩ := List.mem_map.mp hc
    rw [← hx]
    rfl
  rw [hnonNA]
  rw [if_neg (by simp), if_neg (by simp)]
  unfold processObjectColumn series_as_JSON
  have hparsed : (col.map (fun _ => (none : Option Str))).map
      (fun c => jsonLoads (fillCell c)) =
      col.map (fun _ => some (Value.vstr [])) := by
    rw [List.map_map]
    apply List.map_congr_left
    intro c _
    rfl
  rw [hparsed]
  rw [if_pos (by
    rw [List.all_eq_true]
    intro x hx
    obtain ⟨y, _, hy⟩ := List.mem_map.mp hx
    rw [← hy]
    rfl)]
  rw [List.map_map]
  show (col.map (replaceEmptyCell ∘ fun _ => some (Value.vstr []))) = col
  conv_rhs => rw [← List.map_id col]
  apply List.map_congr_left
  intro c hc
  rw [h c hc]
  rfl

theorem decode_int_col (col : Col)
    (hvals : col.filterMap id ≠ [])
    (hall : ∀ v ∈ col.filterMap id, ∃ k, v = Value.vint k) :
    inferColumn jsonLoads (col.map cellToField) = col := by
  have hcells : (col.map cellToField).map readColField =
      col.map (Option.map (fun v => cellToField (some v))) := by
    rw [List.map_map]
    apply List.map_congr_left
    intro c hc
    cases c with
    | none => rfl
    | some v =>
      obtain ⟨k, hk⟩ := hall v (mem_vals_of_mem hc)
      subst hk
      show readColField (intRepr k) = some (intRepr k)
      unfold readColField
      rw [isNAField_intRepr k]
      simp
  have hnonNA : ((col.map cellToField).map readColField).filterMap id =
      (col.filterMap id).map (fun v => cellToField (some v)) := by
    rw [hcells, filterMap_id_map_optionMap]
  have hint : (((col.map cellToField).map readColField).filterMap id).all
      isIntField = true := by
    rw [hnonNA, List.all_eq_true]
    intro x hx
    obtain ⟨v, hv, hveq⟩ := List.mem_map.mp hx
    obtain ⟨k, hk⟩ := hall v hv
    rw [← hveq, hk]
    exact isIntField_intRepr k
  unfold inferColumn
  rw [if_pos ⟨by rw [hnonNA]; simpa using hvals, hint⟩]
  rw [hcells, List.map_map]
  conv_rhs => rw [← List.map_id col]
  apply List.map_congr_left
  intro c hc
  cases c with
  | none => rfl
  | some v =>
    obtain ⟨k, hk⟩ := hall v (mem_vals_of_mem hc)
    subst hk
    show some (Value.vint (parseIntField (intRepr k))) = some (Value.vint k)
    rw [parseIntField_intRepr]

theorem decode_bool_col (col : Col)
    (hvals : col.filterMap id ≠ [])
    (hall : ∀ v ∈ col.filterMap id, ∃ b, v = Value.vbool b) :
    inferColumn jsonLoads (col.map cellToField) = col := by
  have hcells : (col.map cellToField).map readColField =
      col.map (Option.map (fun v => cellToField (some v))) := by
    rw [List.map_map]
    apply List.map_congr_left
    intro c hc
    cases c with
    | none => rfl
    | some v =>
      obtain ⟨b, hb⟩ := hall v (mem_vals_of_mem hc)
      subst hb
      cases b <;> rfl
  have hnonNA : ((col.map cellToField).map readColField).filterMap id =
      (col.filterMap id).map (fun v => cellToField (some v)) := by
    rw [hcells, filterMap_id_map_optionMap]
  have hnne : (col.filterMap id).map (fun v => cellToField (some v)) ≠ [] :=
    by simpa using hvals
  have hnotint : ¬ ((((col.map cellToField).map readColField).filterMap id
      ≠ []) ∧ (((col.map cellToField).map readColField).filterMap id).all
      isIntField = true) := by
    rintro ⟨_, hint⟩
    obtain ⟨v0, hv0⟩ := List.exists_mem_of_ne_nil _ hvals
    obtain ⟨b, hb⟩ := hall v0 hv0
    have hx : cellToField (some v0) ∈
        ((col.map cellToField).map readColField).filterMap id := by
      rw [hnonNA]
      exact List.mem_map_of_mem _ hv0
    have := List.all_eq_true.mp hint _ hx
    rw [hb] at this
    cases b <;> simp [cellToField, trueField, falseField, isIntField] at this
  have hbool : (((col.map cellToField).map readColField).filterMap id).all
      isBoolField = true := by
    rw [hnonNA, List.all_eq_true]
    intro x hx
    obtain ⟨v, hv, hveq⟩ := List.mem_map.mp hx
    obtain ⟨b, hb⟩ := hall v hv
    rw [← hveq, hb]
    cases b <;> rfl
  unfold inferColumn
  rw [if_neg hnotint]
  rw [if_pos ⟨by rw [hnonNA]; exact hnne, hbool⟩]
  rw [hcells, List.map_map]
  conv_rhs => rw [← List.map_id col]
  apply List.map_congr_left
  intro c hc
  cases c with
  | none => rfl
  | some v =>
    obtain ⟨b, hb⟩ := hall v (mem_vals_of_mem hc)
    subst hb
    cases b <;> rfl

theorem decode_str_col (col : Col)
    (_hvals : col.filterMap id ≠ [])
    (hallstr : ∀ v ∈ col.filterMap id, ∃ s, v = Value.vstr s ∧
      isNAField s = false ∧ '\n' ∉ s)
    (hbad : ∃ v ∈ col.filterMap id, ∃ s, v = Value.vstr s ∧
      jsonLoads s = none ∧ isIntField s = false ∧ isBoolField s = false ∧
      isFloatField s = false) :
    inferColumn jsonLoads (col.map cellToField) = col := by
  have hcells : (col.map cellToField).map readColField =
      col.map (Option.map (fun v => cellToField (some v))) := by
    rw [List.map_map]
    apply List.map_congr_left
    intro c hc
    cases c with
    | none => rfl
    | some v =>
      obtain ⟨s, hs, hna, _⟩ := hallstr v (mem_vals_of_mem hc)
      subst hs
      show readColField s = some s
      unfold readColField
      rw [hna]
      simp
  have hnonNA : ((col.map cellToField).map readColField).filterMap id =
      (col.filterMap id).map (fun v => cellToField (some v)) := by
    rw [hcells, filterMap_id_map_optionMap]
  obtain ⟨v0, hv0, s0, hs0, hjson0, hint0, hbool0, _⟩ := hbad
  have hmem0 : cellToField (some v0) ∈
      ((col.map cellToField).map readColField).filterMap id := by
    rw [hnonNA]
    exact List.mem_map_of_mem _ hv0
  have hnotint : ¬ ((((col.map cellToField).map readColField).filterMap id
      ≠ []) ∧ (((col.map cellToField).map readColField).filterMap id).all
      isIntField = true) := by
    rintro ⟨_, hint⟩
    have := List.all_eq_true.mp hint _ hmem0
    rw [hs0] at this
    rw [show cellToField (some (Value.vstr s0)) = s0 from rfl] at this
    rw [hint0] at this
    cases this
  have hnotbool : ¬ ((((col.map cellToField).map readColField).filterMap id
      ≠ []) ∧ (((col.map cellToField).map readColField).filterMap id).all
      isBoolField = true) := by
    rintro ⟨_, hb⟩
    have := List.all_eq_true.mp hb _ hmem0
    rw [hs0] at this
    rw [show cellToField (some (Value.vstr s0)) = s0 from rfl] at this
    rw [hbool0] at this
    cases this
  unfold inferColumn
  rw [if_neg hnotint, if_neg hnotbool]
  unfold processObjectColumn
  have hfail : series_as_JSON jsonLoads
      ((col.map cellToField).map readColField) = none := by
    unfold series_as_JSON
    rw [if_neg]
    intro hall
    have hmem1 : jsonLoads (fillCell (Option.map
        (fun v => cellToField (some v)) (some v0))) ∈
        (((col.map cellToField).map readColField).map
          (fun c => jsonLoads (fillCell c))) := by
      rw [hcells]
      apply List.mem_map_of_mem
      apply List.mem_map_of_mem
      obtain ⟨a, ha, haeq⟩ := List.mem_filterMap.mp hv0
      cases a with
      | none => cases haeq
      | some w =>
        have : w = v0 := by simpa using haeq
        rw [← this]
        exact ha
    have h2 := List.all_eq_true.mp hall _ hmem1
    rw [hs0] at h2
    rw [show fillCell (Option.map (fun v => cellToField (some v))
        (some (Value.vstr s0))) = s0 from rfl] at h2
    rw [hjson0] at h2
    cases h2
  rw [hfail]
  rw [hcells, List.map_map]
  conv_rhs => rw [← List.map_id col]
  apply List.map_congr_left
  intro c hc
  cases c with
  | none => rfl
  | some v =>
    obtain ⟨s, hs, _, _⟩ := hallstr v (mem_vals_of_mem hc)
    subst hs
    rfl

theorem replaceEmptyCell_structured (v : Value)
    (h : typeTag v = .tList ∨ typeTag v = .tDict) :
    replaceEmptyCell (some v) = some v := by
  cases v with
  | vint n => simp [typeTag] at h
  | vbool b => simp [typeTag] at h
  | vstr s => simp [typeTag] at h
  | vlist xs => rfl
  | vdict kvs => rfl

theorem decode_structured_col (col : Col)
    (hvals : col.filterMap id ≠ [])
    (hall : ∀ v ∈ col.filterMap id,
      typeTag v = .tList ∨ typeTag v = .tDict) :
    inferColumn jsonLoads ((jsonifyCol col).map cellToField) = col := by
  have hcells : ((jsonifyCol col).map cellToField).map readColField =
      col.map (Option.map jsonDumps) := by
    unfold jsonifyCol
    rw [List.map_map, List.map_map]
    apply List.map_congr_left
    intro c hc
    cases c with
    | none => rfl
    | some v =>
      have hfacts := structured_field_facts v (hall v (mem_vals_of_mem hc))
      show readColField (jsonDumps v) = some (jsonDumps v)
      unfold readColField
      rw [hfacts.1]
      simp
  have hnonNA : (((jsonifyCol col).map cellToField).map
      readColField).filterMap id = (col.filterMap id).map jsonDumps := by
    rw [hcells, filterMap_id_map_optionMap]
  obtain ⟨v0, hv0⟩ := List.exists_mem_of_ne_nil _ hvals
  have hfacts0 := structured_field_facts v0 (hall v0 hv0)
  have hmem0 : jsonDumps v0 ∈
      (((jsonifyCol col).map cellToField).map readColField).filterMap id := by
    rw [hnonNA]
    exact List.mem_map_of_mem _ hv0
  have hnotint : ¬ (((((jsonifyCol col).map cellToField).map
      readColField).filterMap id ≠ []) ∧
      ((((jsonifyCol col).map cellToField).map readColField).filterMap
        id).all isIntField = true) := by
    rintro ⟨_, hint⟩
    have := List.all_eq_true.mp hint _ hmem0
    rw [hfacts0.2.1] at this
    cases this
  have hnotbool : ¬ (((((jsonifyCol col).map cellToField).map
      readColField).filterMap id ≠ []) ∧
      ((((jsonifyCol col).map cellToField).map readColField).filterMap
        id).all isBoolField = true) := by
    rintro ⟨_, hb⟩
    have := List.all_eq_true.mp hb _ hmem0
    rw [hfacts0.2.2] at this
    cases this
  unfold inferColumn
  rw [if_neg hnotint, if_neg hnotbool]
  unfold processObjectColumn series_as_JSON
  rw [hcells]
  have hparsed : (col.map (Option.map jsonDumps)).map
      (fun c => jsonLoads (fillCell c)) =
      col.map (fun c =>
        match c with
        | none => some (Value.vstr [])
        | some v => some v) := by
    rw [List.map_map]
    apply List.map_congr_left
    intro c hc
    cases c with
    | none => rfl
    | some v =>
      show jsonLoads (jsonDumps v) = some v
      exact jsonLoads_jsonDumps v
  rw [hparsed]
  rw [if_pos (by
    rw [List.all_eq_true]
    intro x hx
    obtain ⟨c, hcm, hceq⟩ := List.mem_map.mp hx
    cases c <;> (rw [← hceq]; rfl))]
  rw [List.map_map]
  conv_rhs => rw [← List.map_id col]
  apply List.map_congr_left
  intro c hc
  cases c with
  | none => rfl
  | some v =>
    show replaceEmptyCell (some v) = some v
    exact replaceEmptyCell_structured v (hall v (mem_vals_of_mem hc))

/-! ## Round-trip machinery: assembly -/

def dumpedFields (col : Col) : List Str :=
  (if shouldJsonify col = true then jsonifyCol col else col).map cellToField

theorem decode_column (col : Col) (h : goodColumn col) :
    inferColumn jsonLoads (dumpedFields col) = col := by
  unfold dumpedFields
  rcases h with hmiss | ⟨hne, hint⟩ | ⟨hne, hbool⟩ | ⟨hne, hstr, hbad⟩ |
    ⟨hne, hlist⟩ | ⟨hne, hdict⟩
  · rw [if_neg (by rw [shouldJsonify_missing col hmiss]; simp)]
    exact decode_missing_col col hmiss
  · rw [if_neg (by
      rw [shouldJsonify_false_of_tag col .tInt (by simp) (by simp)
        (fun v hv => by obtain ⟨k, hk⟩ := hint v hv; rw [hk]; rfl)]
      simp)]
    exact decode_int_col col hne hint
  · rw [if_neg (by
      rw [shouldJsonify_false_of_tag col .tBool (by simp) (by simp)
        (fun v hv => by obtain ⟨b, hb⟩ := hbool v hv; rw [hb]; rfl)]
      simp)]
    exact decode_bool_col col hne hbool
  · rw [if_neg (by
      rw [shouldJsonify_false_of_tag col .tStr (by simp) (by simp)
        (fun v hv => by obtain ⟨s, hs, _, _⟩ := hstr v hv; rw [hs]; rfl)]
      simp)]
    exact decode_str_col col hne hstr hbad
  · rw [if_pos ((shouldJsonify_iff_structured col).mpr
      ⟨hne, Or.inl (fun v hv => by
        obtain ⟨⟨xs, hx⟩, _⟩ := hlist v hv
        rw [hx]
        rfl)⟩)]
    exact decode_structured_col col hne (fun v hv => Or.inl (by
      obtain ⟨⟨xs, hx⟩, _⟩ := hlist v hv
      rw [hx]
      rfl))
  · rw [if_pos ((shouldJsonify_iff_structured col).mpr
      ⟨hne, Or.inr (fun v hv => by
        obtain ⟨⟨kvs, hx⟩, _⟩ := hdict v hv
        rw [hx]
        rfl)⟩)]
    exact decode_structured_col col hne (fun v hv => Or.inr (by
      obtain ⟨⟨kvs, hx⟩, _⟩ := hdict v hv
      rw [hx]
      rfl))

theorem dumpedFields_no_nl (col : Col) (h : goodColumn col) :
    ∀ f ∈ dumpedFields col, '\n' ∉ f := by
  intro f hf
  unfold dumpedFields at hf
  obtain ⟨c, hc, hceq⟩ := List.mem_map.mp hf
  by_cases hsj : shouldJsonify col = true
  · rw [if_pos hsj] at hc
    unfold jsonifyCol at hc
    obtain ⟨c0, hc0, hc0eq⟩ := List.mem_map.mp hc
    cases c0 with
    | none =>
      rw [← hceq, ← hc0eq]
      decide
    | some v =>
      rw [← hceq, ← hc0eq]
      show '\n' ∉ cellToField (jsonifyCell (some v))
      rw [show cellToField (jsonifyCell (some v)) = jsonDumps v from rfl]
      have hno : valNoNL v = true := by
        rcases h with hmiss | ⟨_, _⟩ | ⟨_, _⟩ | ⟨_, _, _⟩ |
          ⟨_, hlist⟩ | ⟨_, hdict⟩
        · exact absurd (hmiss (some v) hc0) (by simp)
        · have := (shouldJsonify_iff_structured col).mp hsj
          obtain ⟨k, hk⟩ := (by assumption :
            ∀ w ∈ col.filterMap id, ∃ k, w = Value.vint k) v
            (mem_vals_of_mem hc0)
          rcases this.2 with hl | hl
          · have := hl v (mem_vals_of_mem hc0)
            rw [hk] at this
            cases this
          · have := hl v (mem_vals_of_mem hc0)
            rw [hk] at this
            cases this
        · have := (shouldJsonify_iff_structured col).mp hsj
          obtain ⟨b, hb⟩ := (by assumption :
            ∀ w ∈ col.filterMap id, ∃ b, w = Value.vbool b) v
            (mem_vals_of_mem hc0)
          rcases this.2 with hl | hl
          · have := hl v (mem_vals_of_mem hc0)
            rw [hb] at this
            cases this
          · have := hl v (mem_vals_of_mem hc0)
            rw [hb] at this
            cases this
        · have := (shouldJsonify_iff_structured col).mp hsj
          obtain ⟨s, hs, _, _⟩ := (by assumption :
            ∀ w ∈ col.filterMap id, ∃ s, w = Value.vstr s ∧
              isNAField s = false ∧ '\n' ∉ s) v (mem_vals_of_mem hc0)
          rcases this.2 with hl | hl
          · have := hl v (mem_vals_of_mem hc0)
            rw [hs] at this
            cases this
          · have := hl v (mem_vals_of_mem hc0)
            rw [hs] at this
            cases this
        · exact (hlist v (mem_vals_of_mem hc0)).2
        · exact (hdict v (mem_vals_of_mem hc0)).2
      exact valNoNL_dumps v hno
  · rw [if_neg hsj] at hc
    cases hc' : c with
    | none =>
      rw [← hceq, hc']
      simp [cellToField]
    | some v =>
      rw [← hceq, hc']
      rcases h with hmiss | ⟨_, hint⟩ | ⟨_, hbool⟩ | ⟨_, hstr, _⟩ |
        ⟨hne, hlist⟩ | ⟨hne, hdict⟩
      · have := hmiss c hc
        rw [hc'] at this
        cases this
      · obtain ⟨k, hk⟩ := hint v (mem_vals_of_mem (hc' ▸ hc))
        rw [hk]
        exact intRepr_no_nl k
      · obtain ⟨b, hb⟩ := hbool v (mem_vals_of_mem (hc' ▸ hc))
        rw [hb]
        cases b <;> decide
      · obtain ⟨s, hs, _, hnl⟩ := hstr v (mem_vals_of_mem (hc' ▸ hc))
        rw [hs]
        exact hnl
      · exfalso
        apply hsj
        exact (shouldJsonify_iff_structured col).mpr
          ⟨hne, Or.inl (fun w hw => by
            obtain ⟨⟨xs, hx⟩, _⟩ := hlist w hw
            rw [hx]
            rfl)⟩
      · exfalso
        apply hsj
        exact (shouldJsonify_iff_structured col).mpr
          ⟨hne, Or.inr (fun w hw => by
            obtain ⟨⟨kvs, hx⟩, _⟩ := hdict w hw
            rw [hx]
            rfl)⟩

theorem escQuotes_mem (c : Char) (f : Str) (h : c ∈ escQuotes f) :
    c ∈ f ∨ c = '"' := by
  induction f with
  | nil => simp [escQuotes] at h
  | cons d rest ih =>
    simp only [escQuotes] at h
    by_cases hd : d = '"'
    · rw [if_pos hd] at h
      rcases List.mem_cons.mp h with h | h
      · right; exact h
      · rcases List.mem_cons.mp h with h | h
        · right; exact h
        · rcases ih h with h | h
          · left; exact List.mem_cons_of_mem d h
          · right; exact h
    · rw [if_neg hd] at h
      rcases List.mem_cons.mp h with h | h
      · left; rw [h]; exact List.mem_cons_self d rest
      · rcases ih h with h | h
        · left; exact List.mem_cons_of_mem d h
        · right; exact h

theorem quoteField_no_nl (sep : Char) (f : Str) (h : '\n' ∉ f) :
    '\n' ∉ quoteField sep f := by
  unfold quoteField
  by_cases hq : quoteNeeded sep f = true
  · rw [if_pos hq]
    intro hm
    rcases List.mem_cons.mp hm with hm | hm
    · cases hm
    · rcases List.mem_append.mp hm with hm | hm
      · rcases escQuotes_mem '\n' f hm with hm | hm
        · exact h hm
        · cases hm
      · simp at hm
  · rw [if_neg hq]
    exact h

theorem csvLine_no_nl (sep : Char) (hsep : sep ≠ '\n') :
    ∀ (fields : List Str), (∀ f ∈ fields, '\n' ∉ f) →
      '\n' ∉ csvLine sep fields := by
  intro fields
  induction fields with
  | nil => intro _ hm; simp [csvLine] at hm
  | cons f gs ih =>
    intro h hm
    cases gs with
    | nil =>
      rw [show csvLine sep [f] = quoteField sep f from rfl] at hm
      exact quoteField_no_nl sep f (h f (by simp)) hm
    | cons g rest =>
      rw [show csvLine sep (f :: g :: rest) =
          quoteField sep f ++ sep :: csvLine sep (g :: rest) from rfl] at hm
      rcases List.mem_append.mp hm with hm | hm
      · exact quoteField_no_nl sep f (h f (by simp)) hm
      · rcases List.mem_cons.mp hm with hm | hm
        · exact hsep hm.symm
        · exact ih (fun x hx => h x (List.mem_cons_of_mem f hx)) hm

theorem getD_mem_or {α : Type} (C : List α) (i : Nat) (d : α) :
    C.getD i d = d ∨ C.getD i d ∈ C := by
  by_cases hi : i < C.length
  · right
    rw [List.getD_eq_getElem C d hi]
    exact List.getElem_mem hi
  · left
    push_neg at hi
    rw [List.getD_eq_default C d hi]

theorem read_csv_resolve_exact (isfile : Str → Bool) (p : Str)
    (h : isfile p = true) : read_csv_resolve isfile p = .ok p := by
  unfold read_csv_resolve
  simp [h]

theorem read_csv_of_singleton (parse : Str → Option Value)
    (path contents : Str) (sep : Char) (dtypeKeys : List Str)
    (cols : List (Str × Col))
    (hparse : parseContents parse dtypeKeys sep contents = some cols) :
    read_csv parse (fun q => if q = path then some contents else none)
      path sep dtypeKeys = .ok cols := by
  unfold read_csv
  rw [read_csv_resolve_exact _ _ (by simp)]
  simp [hparse]

/-- Claim C5: a delimited encode (dump_df) classifies a column STRUCTURED
— each non-missing cell serialized to JSON text before writing — if and
only if all its non-missing cells have one single runtime type and that
type is list or dict; a column mixing the two structured kinds, or mixing
structured and scalar non-missing values, is always PLAIN. -/
theorem claim_C5_structured_classification (col : Col) :
    shouldJsonify col = true ↔
      (col.filterMap id ≠ [] ∧
        ((∀ v ∈ col.filterMap id, typeTag v = .tList) ∨
         (∀ v ∈ col.filterMap id, typeTag v = .tDict))) :=
  shouldJsonify_iff_structured col

theorem dump_df_contents (df : PdDataFrame) (filepath : Str)
    (indexOpt : Option Bool) (sepOpt : Option Char) :
    (dump_df df filepath indexOpt sepOpt).contents =
      to_csv (resolveSepPath sepOpt filepath).1
        (indexIncluded indexOpt df.index) (outColsOf df.cols) df.index := rfl

theorem outColsOf_length (cols : List (Str × Col)) :
    (outColsOf cols).length = cols.length := by
  unfold outColsOf; simp

theorem outColsOf_fst (cols : List (Str × Col)) :
    (outColsOf cols).map (fun nc => nc.1) = cols.map (fun nc => nc.1) := by
  unfold outColsOf
  rw [List.map_map]
  exact List.map_congr_left (fun nc _ => rfl)

theorem outColsOf_ne_nil (cols : List (Str × Col)) (h : cols ≠ []) :
    outColsOf cols ≠ [] := by
  unfold outColsOf; simp [h]

theorem nrows_outColsOf (cols : List (Str × Col)) :
    nrows (outColsOf cols) = nrows cols := by
  unfold outColsOf
  cases cols with
  | nil => rfl
  | cons hd tl =>
    simp only [List.map_cons]
    by_cases hs : shouldJsonify hd.2 = true
    · simp [nrows, hs, jsonifyCol]
    · simp [nrows, hs]

theorem outColsOf_getElem (cols : List (Str × Col)) (j : Nat)
    (hj : j < cols.length) (hj2 : j < (outColsOf cols).length) :
    (outColsOf cols)[j] =
      (cols[j].1,
       if shouldJsonify cols[j].2 = true then jsonifyCol cols[j].2
       else cols[j].2) := by
  unfold outColsOf
  simp [List.getElem_map]

theorem to_csv_noIndex (sep : Char) (cols : List (Str × Col))
    (idx : PdIndex) :
    to_csv sep false cols idx =
      joinLines (csvLine sep (cols.map (fun nc => nc.1)) ::
        (List.range (nrows cols)).map
          (fun i => csvLine sep (rowFields cols i))) := rfl

theorem fileRecords_joinLines (L : List Str) (h : ∀ l ∈ L, '\n' ∉ l) :
    fileRecords (joinLines L) = L := by
  unfold fileRecords
  rw [splitOnNL_joinLines L h]
  rw [List.getLast?_concat]
  simp [List.dropLast_concat]

theorem parseContents_records (parse : Str → Option Value)
    (dtypeKeys : List Str) (sep : Char) (contents header : Str)
    (rowLines : List Str)
    (h : fileRecords contents = header :: rowLines) :
    parseContents parse dtypeKeys sep contents =
      some ((List.range (splitFields sep header).length).map (fun j =>
        ((splitFields sep header).getD j [],
         processColumn parse dtypeKeys ((splitFields sep header).getD j [])
           ((rowLines.map (splitFields sep)).map
             (fun row => row.getD j []))))) := by
  unfold parseContents
  rw [h]

theorem toCsvLines_no_nl (cols : List (Str × Col))
    (hnames : ∀ nc ∈ cols, '\n' ∉ nc.1)
    (hgood : ∀ nc ∈ cols, goodColumn nc.2) :
    ∀ l ∈ (csvLine ',' ((outColsOf cols).map (fun nc => nc.1)) ::
      (List.range (nrows (outColsOf cols))).map
        (fun i => csvLine ',' (rowFields (outColsOf cols) i))), '\n' ∉ l := by
  intro l hl
  rcases List.mem_cons.mp hl with hl | hl
  · subst hl
    apply csvLine_no_nl ',' (by decide)
    intro f hf
    rw [outColsOf_fst] at hf
    rcases List.mem_map.mp hf with ⟨nc, hnc, rfl⟩
    exact hnames nc hnc
  · rcases List.mem_map.mp hl with ⟨i, _, rfl⟩
    apply csvLine_no_nl ',' (by decide)
    intro f hf
    rcases List.mem_map.mp hf with ⟨nc, hnc, rfl⟩
    unfold outColsOf at hnc
    rcases List.mem_map.mp hnc with ⟨mc, hmc, rfl⟩
    rcases getD_mem_or
      (if shouldJsonify mc.2 = true then jsonifyCol mc.2 else mc.2) i none
      with hg | hg
    · rw [hg]; simp [cellToField]
    · have hmem : cellToField
          ((if shouldJsonify mc.2 = true then jsonifyCol mc.2
            else mc.2).getD i none) ∈ dumpedFields mc.2 := by
        unfold dumpedFields
        exact List.mem_map.mpr ⟨_, hg, rfl⟩
      exact dumpedFields_no_nl mc.2 (hgood mc hmc) _ hmem

/-- Core of the delimited round trip: parsing back the written text of the
JSONified columns recovers the original columns exactly. -/
theorem parseContents_to_csv (cols : List (Str × Col)) (idx : PdIndex)
    (hne : cols ≠ [])
    (hlen : ∀ nc ∈ cols, nc.2.length = nrows cols)
    (hnames : ∀ nc ∈ cols, '\n' ∉ nc.1)
    (hgood : ∀ nc ∈ cols, goodColumn nc.2) :
    parseContents jsonLoads [] ',' (to_csv ',' false (outColsOf cols) idx) =
      some cols := by
  have hnl := toCsvLines_no_nl cols hnames hgood
  rw [to_csv_noIndex]
  rw [parseContents_records _ _ _ _ _ _ (fileRecords_joinLines _ hnl)]
  have hocne : outColsOf cols ≠ [] := outColsOf_ne_nil cols hne
  have hheader : splitFields ','
      (csvLine ',' ((outColsOf cols).map (fun nc => nc.1))) =
      (outColsOf cols).map (fun nc => nc.1) :=
    splitFields_csvLine ',' (by decide) _ (by simp [hocne])
  rw [hheader]
  have hrows : (((List.range (nrows (outColsOf cols))).map
      (fun i => csvLine ',' (rowFields (outColsOf cols) i))).map
        (splitFields ',')) =
      (List.range (nrows (outColsOf cols))).map
        (fun i => rowFields (outColsOf cols) i) := by
    rw [List.map_map]
    apply List.map_congr_left
    intro i _
    show splitFields ',' (csvLine ',' (rowFields (outColsOf cols) i)) = _
    exact splitFields_csvLine ',' (by decide) _ (by simp [rowFields, hocne])
  rw [hrows]
  congr 1
  apply List.ext_getElem
  · simp [outColsOf_length]
  · intro j h1 h2
    simp only [List.getElem_map, List.getElem_range]
    have hj : j < cols.length := h2
    have hjoc : j < (outColsOf cols).length := by
      rw [outColsOf_length]; exact hj
    have hocget := outColsOf_getElem cols j hj hjoc
    have hname : ((outColsOf cols).map (fun nc => nc.1)).getD j [] =
        cols[j].1 := by
      rw [outColsOf_fst]
      rw [List.getD_eq_getElem _ _ (by simpa using hj)]
      simp
    have hcjlen : ((outColsOf cols)[j]).2.length =
        nrows (outColsOf cols) := by
      rw [hocget, nrows_outColsOf]
      by_cases hs : shouldJsonify cols[j].2 = true
      · simp only [if_pos hs, jsonifyCol, List.length_map]
        exact hlen _ (List.getElem_mem hj)
      · simp only [if_neg hs]
        exact hlen _ (List.getElem_mem hj)
    have hfields : (((List.range (nrows (outColsOf cols))).map
        (fun i => rowFields (outColsOf cols) i)).map
          (fun row => row.getD j [])) =
        dumpedFields (cols[j].2) := by
      rw [List.map_map]
      have hstep : ∀ i, ((fun row => row.getD j ([] : Str)) ∘
          (fun i => rowFields (outColsOf cols) i)) i =
          cellToField ((((outColsOf cols)[j]).2).getD i none) := by
        intro i
        show (rowFields (outColsOf cols) i).getD j [] = _
        unfold rowFields
        rw [List.getD_eq_getElem _ _ (by simpa using hjoc)]
        simp
      calc (List.range (nrows (outColsOf cols))).map
            ((fun row => row.getD j ([] : Str)) ∘
              (fun i => rowFields (outColsOf cols) i))
          = (List.range (nrows (outColsOf cols))).map
              (fun i =>
                cellToField ((((outColsOf cols)[j]).2).getD i none)) :=
            List.map_congr_left (fun i _ => hstep i)
        _ = (((outColsOf cols)[j]).2).map cellToField :=
            range_map_field _ _ hcjlen
        _ = dumpedFields (cols[j].2) := by
            rw [hocget]
            unfold dumpedFields
            rfl
    rw [hname, hfields]
    have hpc : processColumn jsonLoads [] (cols[j].1)
        (dumpedFields (cols[j].2)) = cols[j].2 := by
      unfold processColumn
      rw [if_neg (by simp)]
      exact decode_column _ (hgood _ (List.getElem_mem hj))
    rw [hpc]

theorem pyJoin_append (a b s : Str) (hb : b ≠ [])
    (hh : b.head? ≠ some '/') :
    pyJoin a (b ++ s) = pyJoin a b ++ s := by
  unfold pyJoin
  have hbh : (b ++ s).head? = b.head? := by
    cases b with
    | nil => exact absurd rfl hb
    | cons c t => rfl
  rw [hbh]
  rw [if_neg hh, if_neg hh]
  by_cases ha : a = []
  · rw [if_pos ha, if_pos ha]
  · rw [if_neg ha, if_neg ha]
    by_cases hl : a.getLast? = some '/'
    · rw [if_pos hl, if_pos hl, List.append_assoc]
    · rw [if_neg hl, if_neg hl]
      simp

theorem read_json_split_to_json (cols : List (Str × Col))
    (indexLabels : List Str)
    (hlen : ∀ nc ∈ cols, nc.2.length = nrows cols) :
    read_json_split (to_json_split cols indexLabels) = cols := by
  unfold read_json_split to_json_split
  apply List.ext_getElem
  · simp
  · intro j h1 h2
    simp only [List.getElem_map, List.getElem_range]
    have hj : j < cols.length := h2
    have hname : ((cols.map (fun nc => nc.1)).getD j []) = cols[j].1 := by
      rw [List.getD_eq_getElem _ _ (by simpa using hj)]
      simp
    have hcol : (((List.range (nrows cols)).map
        (fun i => cols.map (fun nc => nc.2.getD i none))).map
          (fun row => row.getD j none)) = cols[j].2 := by
      rw [List.map_map]
      have hstep : ∀ i, ((fun row => row.getD j (none : Cell)) ∘
          (fun i => cols.map (fun nc => nc.2.getD i none))) i =
          cols[j].2.getD i none := by
        intro i
        show (cols.map (fun nc => nc.2.getD i none)).getD j none = _
        rw [List.getD_eq_getElem _ _ (by simpa using hj)]
        simp
      rw [List.map_congr_left (fun i _ => hstep i)]
      have hC : cols[j].2.length = nrows cols :=
        hlen _ (List.getElem_mem hj)
      rw [← hC]
      exact range_map_getD _ _
    rw [hname, hcol]

theorem load_json_df_exact (doc : SplitDoc) (dir subdir filename : Str) :
    load_json_df
      (fun q => if q = pyJoin (pyJoin dir subdir) filename then some doc
        else none) dir subdir filename = .ok (read_json_split doc) := by
  unfold load_json_df
  simp

theorem load_json_df_dotJson (doc : SplitDoc) (dir subdir filename : Str) :
    load_json_df
      (fun q => if q = pyJoin (pyJoin dir subdir) filename ++ dotJson
        then some doc else none) dir subdir filename =
      .ok (read_json_split doc) := by
  unfold load_json_df
  have hne : pyJoin (pyJoin dir subdir) filename ≠
      pyJoin (pyJoin dir subdir) filename ++ dotJson := by
    intro h
    have hlen := congrArg List.length h
    simp [dotJson] at hlen
  simp [hne]

/-- JSON round trip at the project layer: loading the document written by
dump_df_as_json recovers the columns. -/
theorem json_roundtrip (cols : List (Str × Col)) (indexLabels : List Str)
    (dir subdir filename : Str)
    (hb : filename ≠ []) (hh : filename.head? ≠ some '/')
    (hlen : ∀ nc ∈ cols, nc.2.length = nrows cols) :
    load_json_df
      (fun q =>
        if q = (dump_df_as_json cols indexLabels dir subdir filename).1
        then some (dump_df_as_json cols indexLabels dir subdir filename).2
        else none)
      dir subdir filename = .ok cols := by
  have hd : (dump_df_as_json cols indexLabels dir subdir filename).2 =
      to_json_split cols indexLabels := rfl
  by_cases hs : jsonSuffix.isSuffixOf filename = true
  · have hp : (dump_df_as_json cols indexLabels dir subdir filename).1 =
        pyJoin (pyJoin dir subdir) filename := by
      simp [dump_df_as_json, hs]
    rw [hp, hd, load_json_df_exact,
      read_json_split_to_json cols indexLabels hlen]
  · have hp : (dump_df_as_json cols indexLabels dir subdir filename).1 =
        pyJoin (pyJoin dir subdir) filename ++ dotJson := by
      simp only [dump_df_as_json, if_neg hs]
      exact pyJoin_append _ _ _ hb hh
    rw [hp, hd, load_json_df_dotJson,
      read_json_split_to_json cols indexLabels hlen]

/-- Claim C1 (amended): the encode/decode round trip reproduces column
order, names, and cell values (with missing positions) for both the
delimited format (dump_df then read_csv) and the JSON 'split' format
(dump_df_as_json then load_json_df), for tables whose columns satisfy
goodColumn — all-missing, uniformly int, uniformly bool, newline-free
non-marker strings with at least one cell no reader stage re-interprets,
or uniformly list / uniformly dict with newline-free content — with
newline-free column names, uniform column lengths, a numeric index left
unwritten, a destination avoiding '.tsv', and a plain JSON file name.
The original claim, quantified over all scalar columns, fails: a string
column holding the text of a number decodes as an int column. -/
theorem claim_C1_structured_round_trip (df : PdDataFrame) (filepath : Str)
    (indexLabels : List Str) (dir subdir filename : Str)
    (hne : df.cols ≠ [])
    (hlen : ∀ nc ∈ df.cols, nc.2.length = nrows df.cols)
    (hnames : ∀ nc ∈ df.cols, '\n' ∉ nc.1)
    (hgood : ∀ nc ∈ df.cols, goodColumn nc.2)
    (hidx : indexIncluded none df.index = false)
    (htsv : containsSub filepath tsvExt = false)
    (hb : filename ≠ []) (hh : filename.head? ≠ some '/') :
    read_csv jsonLoads
      (fun q => if q = (dump_df df filepath none none).path
        then some (dump_df df filepath none none).contents else none)
      ((dump_df df filepath none none).path) ',' [] = .ok df.cols ∧
    load_json_df
      (fun q =>
        if q = (dump_df_as_json df.cols indexLabels dir subdir filename).1
        then some (dump_df_as_json df.cols indexLabels dir subdir filename).2
        else none)
      dir subdir filename = .ok df.cols := by
  constructor
  · apply read_csv_of_singleton
    rw [dump_df_contents]
    have hsep : (resolveSepPath none filepath).1 = ',' := by
      simp [resolveSepPath, htsv]
    rw [hsep, hidx]
    exact parseContents_to_csv df.cols df.index hne hlen hnames hgood
  · exact json_roundtrip df.cols indexLabels dir subdir filename hb hh hlen

/-- Counterexample to claim C1 as stated: the one-column table holding
the single string cell "1" has only scalar non-missing cells, yet the
delimited encode/decode round trip returns an int column — the cell value
changes from the string "1" to the integer 1. -/
theorem claim_C1_counterexample :
    (∀ v ∈ ([some (Value.vstr ['1'])] : Col).filterMap id,
      (∃ k, v = Value.vint k) ∨ (∃ b, v = Value.vbool b) ∨
      (∃ s, v = Value.vstr s)) ∧
    read_csv jsonLoads
      (fun q => if q = (dump_df ⟨[(['c'], [some (Value.vstr ['1'])])],
          .rangeIdx 0 1 1⟩ ['t'] none none).path
        then some ((dump_df ⟨[(['c'], [some (Value.vstr ['1'])])],
          .rangeIdx 0 1 1⟩ ['t'] none none).contents) else none)
      ((dump_df ⟨[(['c'], [some (Value.vstr ['1'])])],
          .rangeIdx 0 1 1⟩ ['t'] none none).path) ',' [] =
      .ok [(['c'], [some (Value.vint 1)])] ∧
    some (Value.vint 1) ≠ some (Value.vstr ['1']) := by
  refine ⟨?_, ?_, ?_⟩
  · intro v hv
    have hv2 : v ∈ [Value.vstr ['1']] := hv
    rw [List.mem_singleton] at hv2
    exact Or.inr (Or.inr ⟨['1'], hv2⟩)
  · rfl
  · intro h
    injection h with h2
    exact Value.noConfusion h2

/-- Witness for claim C1's amended theorem: a two-column table (an int
column and a list column) survives both round trips. -/
theorem claim_C1_structured_round_trip_witness :
    read_csv jsonLoads
      (fun q => if q = (dump_df ⟨[(['a'], [some (Value.vint 1)]),
          (['b'], [some (Value.vlist [])])], .rangeIdx 0 1 1⟩ ['t']
          none none).path
        then some ((dump_df ⟨[(['a'], [some (Value.vint 1)]),
          (['b'], [some (Value.vlist [])])], .rangeIdx 0 1 1⟩ ['t']
          none none).contents) else none)
      ((dump_df ⟨[(['a'], [some (Value.vint 1)]),
          (['b'], [some (Value.vlist [])])], .rangeIdx 0 1 1⟩ ['t']
          none none).path) ',' [] =
      .ok [(['a'], [some (Value.vint 1)]),
        (['b'], [some (Value.vlist [])])] ∧
    load_json_df
      (fun q => if q = (dump_df_as_json [(['a'], [some (Value.vint 1)]),
          (['b'], [some (Value.vlist [])])] [] ['d'] ['s'] ['f']).1
        then some ((dump_df_as_json [(['a'], [some (Value.vint 1)]),
          (['b'], [some (Value.vlist [])])] [] ['d'] ['s'] ['f']).2)
        else none)
      ['d'] ['s'] ['f'] =
      .ok [(['a'], [some (Value.vint 1)]),
        (['b'], [some (Value.vlist [])])] :=
  claim_C1_structured_round_trip
    ⟨[(['a'], [some (Value.vint 1)]), (['b'], [some (Value.vlist [])])],
      .rangeIdx 0 1 1⟩ ['t'] [] ['d'] ['s'] ['f']
    (by simp) (by decide) (by decide)
    (by
      intro nc hnc
      rcases List.mem_cons.mp hnc with h | h
      · subst h
        exact Or.inr (Or.inl ⟨fun hcon => List.noConfusion hcon,
          fun v hv => by
            have hv2 : v ∈ [Value.vint 1] := hv
            rw [List.mem_singleton] at hv2
            exact ⟨1, hv2⟩⟩)
      · rw [List.mem_singleton] at h
        subst h
        exact Or.inr (Or.inr (Or.inr (Or.inr (Or.inl
          ⟨fun hcon => List.noConfusion hcon,
           fun v hv => by
             have hv2 : v ∈ [Value.vlist []] := hv
             rw [List.mem_singleton] at hv2
             subst hv2
             exact ⟨⟨[], rfl⟩, rfl⟩⟩)))))
    rfl (by decide) (by decide) (by decide)
